import Mathlib

/-!
# Verification of the clueweb-tools scan / extraction pipeline

A shallow embedding of the core of the `clueweb-tools` repository
(offset reader, ClueWeb22-ID path decoder, record extractor, file-state
store, coordinator, dynamic supervisor, k-way merger) together with
theorems settling the specification claims about it.

Python strings are modelled as `List Char`; bytes as `Nat`; file reads
(`seek`/`read`) as `List.drop`/`List.take`; exceptions as `Option`.
-/

namespace ClueWeb

/-! ## Basic Python string primitives -/

/-- Python `str.isdigit` restricted to ASCII decimal digits (the only
characters appearing in offset tables and ClueWeb22-IDs). -/
def pyIsDigit (c : Char) : Bool := '0' ≤ c && c ≤ '9'

/-- Numeric value of a decimal digit character. -/
def digitVal (c : Char) : Nat := c.toNat - '0'.toNat

/-- Character for a decimal digit value. -/
def digitChr (d : Nat) : Char := Char.ofNat ('0'.toNat + d)

/-- Parse a list of decimal digit characters, most significant first. -/
def parseDigits (s : List Char) : Nat :=
  s.foldl (fun acc c => 10 * acc + digitVal c) 0

/-- Embedding of Python `int(s)` on the strings occurring in offset
tables: defined (as `some`) exactly on non-empty all-digit strings,
`none` models the `ValueError` raised on anything else. -/
def pyInt (s : List Char) : Option Nat :=
  if s ≠ [] ∧ s.all pyIsDigit then some (parseDigits s) else none

/-! ## C2: the offset reader (`misc/utils.get_offsets`,
`clueweb_extract_data.ClueWebDataExtractor.get_offset`)

The source constant `OFFSET_SIZE_BYTES = 11` (one 10-digit character
string plus a newline).  `get_offset` seeks to `record_id *
OFFSET_SIZE_BYTES`, reads `OFFSET_SIZE_BYTES * 2` characters, raises if
fewer than 22 were read, and parses slices
`offset_data[:OFFSET_SIZE_BYTES-1]` (chars 0..9) and
`offset_data[OFFSET_SIZE_BYTES+1:-1]` (chars 12..20). -/

def OFFSET_SIZE_BYTES : Nat := 11

/-- Embedding of `ClueWebDataExtractor.get_offset` (and of the parsing
core of `misc.utils.get_offsets`): `content` is the full text of the
`.offset` file, `record_id` the 0-based record index.  `none` models a
raised exception. -/
def get_offset (content : List Char) (record_id : Nat) : Option (Nat × Nat) :=
  -- seek to record_id * OFFSET_SIZE_BYTES, read OFFSET_SIZE_BYTES * 2 chars
  let offset_data := (content.drop (record_id * OFFSET_SIZE_BYTES)).take (OFFSET_SIZE_BYTES * 2)
  if offset_data.length < OFFSET_SIZE_BYTES * 2 then none
  else do
    -- offset_data[:OFFSET_SIZE_BYTES-1], offset_data[OFFSET_SIZE_BYTES+1:-1]
    let offset_start ← pyInt (offset_data.take (OFFSET_SIZE_BYTES - 1))
    let offset_end ← pyInt ((offset_data.drop (OFFSET_SIZE_BYTES + 1)).take
      (OFFSET_SIZE_BYTES * 2 - 1 - (OFFSET_SIZE_BYTES + 1)))
    pure (offset_start, offset_end)

/-- Fixed-width decimal rendering of `n % 10^w`, most significant digit
first. -/
def padW (w n : Nat) : List Char :=
  (List.range w).map (fun i => digitChr (n / 10 ^ (w - 1 - i) % 10))

/-- A 10-digit zero-padded decimal rendering of `n` (the format in
which offset values are stored in `.offset` files). -/
def pad10 (n : Nat) : List Char := padW 10 n

/-- One line of an `.offset` file: a 10-digit value plus a newline. -/
def offsetLine (n : Nat) : List Char := pad10 n ++ ['\n']

/-- An `.offset` file holding the given offset values, one per line. -/
def offsetTable (offsets : List Nat) : List Char :=
  (offsets.map offsetLine).flatten

/-- The 66-byte offset table of the spec's scenario S2: three 22-byte
entries encoding the pairs (0,100), (100,250), (250,400). -/
def table66 : List Char :=
  offsetTable [0, 100, 100, 250, 250, 400]

/-! ## C1: the ClueWeb22-ID path decoder (`misc/utils.id_to_path_components`,
`misc/utils.id_to_data_file_path`) -/

/-- Embedding of the `find_first_digit` helper defined inside
`id_to_path_components`: index of the first decimal digit, `-1` when
there is none. -/
def find_first_digit : List Char → Int
  | [] => -1
  | c :: cs =>
    if pyIsDigit c then 0
    else if find_first_digit cs < 0 then -1 else find_first_digit cs + 1

/-- Python slice `s[:k]` for a possibly negative bound `k`. -/
def pySliceTo (s : List Char) (k : Int) : List Char :=
  if k < 0 then s.take (s.length - (-k).toNat) else s.take k.toNat

/-- Python `str.split(sep)` (single-character separator, empty pieces
kept, no collapsing). -/
def pySplit (sep : Char) : List Char → List (List Char)
  | [] => [[]]
  | c :: cs =>
    if c = sep then [] :: pySplit sep cs
    else
      match pySplit sep cs with
      | [] => [[c]]
      | g :: gs => (c :: g) :: gs

/-- Worker behind `pyReplace`, consuming one unit of fuel per character
so that the recursion is structural; with `fuel ≥ s.length` it performs
Python's left-to-right non-overlapping replace-all. -/
def pyReplaceAux (p r : List Char) : Nat → List Char → List Char
  | 0, s => s
  | _ + 1, [] => []
  | fuel + 1, c :: cs =>
    if p ≠ [] ∧ p.isPrefixOf (c :: cs) then r ++ pyReplaceAux p r fuel ((c :: cs).drop p.length)
    else c :: pyReplaceAux p r fuel cs

/-- Embedding of Python `s.replace(p, r)`: every occurrence of `p` in
`s` is replaced, scanning left to right without overlap.  (The empty
pattern never occurs in the embedded code, so the `p ≠ []` termination
guard is never exercised.) -/
def pyReplace (s p r : List Char) : List Char := pyReplaceAux p r s.length s

/-- Embedding of `os.path.join` on the non-empty relative components the
decoder passes to it: components joined with `/`. -/
def pyJoin : List (List Char) → List Char
  | [] => []
  | [x] => x
  | x :: xs => x ++ '/' :: pyJoin xs

/-- Embedding of `misc.utils.id_to_path_components`: split the ID into
`(language code, stream ID, subdir, base filename)`.  `none` models the
exception raised when `id.split('-')` does not produce exactly three
fields. -/
def id_to_path_components (id : List Char) : Option (List Char × List Char × List Char × List Char) :=
  -- don't care about the prefix
  let id := if ("clueweb22-".data).isPrefixOf id then id.drop 10 else id
  match pySplit '-' id with
  | [subdir, file_seq, _] =>
    let digit_index := find_first_digit subdir
    -- lang = subdir[:digit_index]
    let lang := pySliceTo subdir digit_index
    -- stream_id = subdir[:digit_index+2]
    let stream_id := pySliceTo subdir (digit_index + 2)
    some (lang, stream_id, subdir, subdir ++ '-' :: file_seq)
  | _ => none

/-- Embedding of `misc.utils.id_to_data_file_path`: path to the data
file for an ID plus the path of its offset file.  The offset path is
produced by `path.replace(format if filetype == 'txt' else 'gz',
'offset')` — a replace-all on the container path. -/
def id_to_data_file_path (root id filetype : List Char) : Option (List Char × List Char) := do
  let (lang_code, stream_id, subdir, filename) ← id_to_path_components id
  let format := if filetype = "txt".data then "json.gz".data else "warc.gz".data
  let path := pyJoin [root, filetype, lang_code, stream_id, subdir, filename ++ '.' :: format]
  let offset_path := pyReplace path (if filetype = "txt".data then format else "gz".data) "offset".data
  pure (path, offset_path)

/-! ## C4: the file-state store
(`metadata_scanning/clueweb_dbwrapper.ClueWebFileDatabase`)

The SQLite table `files(id PK, path UNIQUE, records, state, job,
started, finished)` is modelled as a list of rows in primary-key order
(ids are assigned by insertion order, so the list order is the `ORDER BY
id ASC` order whenever the ids are sorted, which the theorems assume
explicitly).  SQL `NULL` for `job` is `none`; the empty string written
by `clear_batch` is `some ""`. -/

def NOT_STARTED : Nat := 0
def IN_PROGRESS : Nat := 1
def DONE : Nat := 2

structure FileRow where
  id : Nat
  path : String
  records : Nat
  state : Nat
  job : Option String
  started : Option String
  finished : Option String
deriving DecidableEq, Repr

/-- Embedding of `ClueWebFileDatabase.generate`: rows for the
path-sorted `(path, record count)` entries are inserted with
autoincrement ids 1, 2, …, state `NOT_STARTED` and `NULL` job and
timestamps.  (The directory walk, the record-count CSV parsing and the
refusal to overwrite an existing file are outside the store model.) -/
def generate (entries : List (String × Nat)) : List FileRow :=
  entries.enum.map (fun e =>
    { id := e.1 + 1, path := e.2.1, records := e.2.2, state := NOT_STARTED,
      job := none, started := none, finished := none })

/-- The `SELECT id, path FROM files WHERE state = NOT_STARTED ORDER BY
id ASC LIMIT count` of `get_next_batch` (the list is kept in id
order). -/
def selectBatch (db : List FileRow) (count : Nat) : List FileRow :=
  (db.filter (fun r => r.state = NOT_STARTED)).take count

/-- Embedding of `ClueWebFileDatabase.get_next_batch`: select up to
`count` `NOT_STARTED` rows in ascending id order, set their state to
`IN_PROGRESS` and their job to `job_id`, and return their ids and
paths together with the updated store. -/
def get_next_batch (db : List FileRow) (job_id : String) (count : Nat) :
    (List Nat × List String) × List FileRow :=
  let sel := selectBatch db count
  let batch_ids := sel.map (fun r => r.id)
  let batch_files := sel.map (fun r => r.path)
  ((batch_ids, batch_files),
    db.map (fun r =>
      if r.id ∈ batch_ids then { r with state := IN_PROGRESS, job := some job_id } else r))

/-- Embedding of `ClueWebFileDatabase.clear_batch`: `UPDATE files SET
state = NOT_STARTED, job = "" WHERE job = job_id` — note every row
holding the job is reset, whatever its state, and the job column is set
to the empty string, not `NULL`. -/
def clear_batch (db : List FileRow) (job_id : String) : List FileRow :=
  db.map (fun r =>
    if r.job = some job_id then { r with state := NOT_STARTED, job := some "" } else r)

/-- Embedding of `ClueWebFileDatabase.complete_batch`: `UPDATE files SET
state = DONE WHERE job = job_id` (the job column is left in place). -/
def complete_batch (db : List FileRow) (job_id : String) : List FileRow :=
  db.map (fun r => if r.job = some job_id then { r with state := DONE } else r)

/-- Embedding of `ClueWebFileDatabase.complete_batch_files`: `UPDATE
files SET state = DONE WHERE path = ?` for each listed path. -/
def complete_batch_files (db : List FileRow) (files : List String) : List FileRow :=
  db.map (fun r => if r.path ∈ files then { r with state := DONE } else r)

/-- The store mutations, for stating invariants over operation
sequences. -/
inductive DbOp where
  | nextBatch (job_id : String) (count : Nat)
  | completeBatch (job_id : String)
  | completeBatchFiles (files : List String)
  | clearBatch (job_id : String)
deriving DecidableEq, Repr

def applyOp (db : List FileRow) : DbOp → List FileRow
  | .nextBatch j n => (get_next_batch db j n).2
  | .completeBatch j => complete_batch db j
  | .completeBatchFiles fs => complete_batch_files db fs
  | .clearBatch j => clear_batch db j

def applyOps (db : List FileRow) (ops : List DbOp) : List FileRow :=
  ops.foldl applyOp db

/-- Specification-side bookkeeping for C10: `resetFlags db acc ops i`
is `true` exactly when, during `ops` run from `db`, some `clear_batch`
reset row `i` and no later `get_next_batch` leased it again (`acc` is
the incoming flag assignment). -/
def updateFlag (db : List FileRow) (op : DbOp) (acc : Nat → Bool) (i : Nat) : Bool :=
  match op with
  | .nextBatch _ n => if i ∈ (selectBatch db n).map (fun r => r.id) then false else acc i
  | .clearBatch j => if db.any (fun r => r.id = i ∧ r.job = some j) then true else acc i
  | _ => acc i

def resetFlags (db : List FileRow) (acc : Nat → Bool) : List DbOp → Nat → Bool
  | [] => acc
  | op :: ops => resetFlags (applyOp db op) (updateFlag db op acc) ops

/-- Whether no `get_next_batch` in the sequence uses the empty string as
its job id (the empty string is `clear_batch`'s reset marker). -/
def noEmptyLease (ops : List DbOp) : Bool :=
  ops.all (fun op => match op with | .nextBatch j _ => j ≠ "" | _ => true)

/-- The five-row store of scenario S3. -/
def store5 : List FileRow :=
  generate [("p1", 0), ("p2", 0), ("p3", 0), ("p4", 0), ("p5", 0)]

/-! ## C3: the record extractor
(`data_extraction/clueweb_extract_data.ClueWebDataExtractor.extract_data`,
`misc/utils.extract_records`)

Bytes are modelled as `Nat`; the gzip and bzip2 codecs are parameters
(they are Python-stdlib collaborators), with round-trip hypotheses in
the theorems.  The streaming `BZ2Compressor` is modelled as a buffering
compressor: `compress` buffers its input (emitting nothing) and `flush`
emits the compression of everything fed so far. -/

/-- Embedding of `misc.utils.extract_records`: for each `(start, end)`
pair, seek to `start` and read `end - start` bytes of the container. -/
def extract_records (container : List Nat) (offsets : List (Nat × Nat)) : List (List Nat) :=
  offsets.map (fun se => (container.drop se.1).take (se.2 - se.1))

/-- One `bz2_c.compress(data)` call: the data joins the compressor
state, nothing is emitted yet.  Returns `(new state, bytes emitted)`. -/
def bz2_compress_step (st data : List Nat) : List Nat × List Nat := (st ++ data, [])

/-- The final `bz2_c.flush()`: emit the compression of the buffered
stream. -/
def bz2_flush (bz2C : List Nat → List Nat) (st : List Nat) : List Nat := bz2C st

/-- The `compress_bzip2` write loop of
`ClueWebDataExtractor.extract_data`: each record slice is gunzipped and
fed into the single running `BZ2Compressor`, which is flushed exactly
once at file end; the returned list is the bytes written to the output
file. -/
def extract_data_bz2 (gzD bz2C : List Nat → List Nat) (container : List Nat)
    (offsets : List (Nat × Nat)) : List Nat :=
  let record_data := extract_records container offsets
  let res := record_data.foldl (fun acc rd =>
      let step := bz2_compress_step acc.1 (gzD rd)
      (step.1, acc.2 ++ step.2)) (([] : List Nat), ([] : List Nat))
  res.2 ++ bz2_flush bz2C res.1

/-! ## C6: the coordinator
(`metadata_scanning/clueweb_metadata_coordinator.ClueWebCoordinator.run`)

One loop iteration: a message is received from the jobs socket or, when
none is waiting there, from the control socket; it is dispatched, and
the single reply `(ZMSG_ACK, reply_data)` is sent — in the source always
through `zmq_sock_jobs.send_pyobj`, whatever socket the request arrived
on.  The `clueweb_zmq` message-code constants are modelled as an
inductive type of distinct tags. -/

inductive Socket where
  | jobs
  | ctrl
deriving DecidableEq, Repr

inductive ZMsg where
  | newjob (job_id : String) (num_files : Nat)
  | finished (job_id : String) (num_files : Nat) (result : Bool)
  | localExit
  | localResetJob (job_id : String)
  | unknown
deriving DecidableEq, Repr

/-- The reply message type; the coordinator's `reply_type` is
initialised to `ZMSG_ACK` and never reassigned. -/
inductive ZReply where
  | ack
deriving DecidableEq, Repr

structure CoordState where
  db : List FileRow
  done : Bool
deriving Repr

/-- One iteration of `ClueWebCoordinator.run` handling the message
`msg` received on socket `src`: returns the new state and the single
`(socket, (reply type, reply data))` send performed at the end of the
loop body (source line `zmq_sock_jobs.send_pyobj((reply_type,
reply_data))`). -/
def coordinator_step (s : CoordState) (_src : Socket) (msg : ZMsg) :
    CoordState × (Socket × ZReply × Option (List String)) :=
  match msg with
  | .newjob j n =>
      let res := get_next_batch s.db j n
      ({ s with db := res.2 }, (Socket.jobs, ZReply.ack, some res.1.2))
  | .finished j _ ok =>
      if ok then ({ s with db := complete_batch s.db j }, (Socket.jobs, ZReply.ack, none))
      else (s, (Socket.jobs, ZReply.ack, none))
  | .localExit => ({ s with done := true }, (Socket.jobs, ZReply.ack, none))
  | .localResetJob j =>
      ({ s with db := clear_batch s.db j }, (Socket.jobs, ZReply.ack, none))
  | .unknown => (s, (Socket.jobs, ZReply.ack, none))

/-! ## C5: scan-worker shard opening
(`clueweb_metadata_scanner.ClueWebMetadataScanner.gather_metadata` and
`clueweb_metadata_scanner_dynamic.ClueWebMetadataScannerDynamic.gather_metadata`)

A filesystem is a map from names to contents; `open(name, 'w')` creates
or truncates. -/

/-- Python `open(name, 'w')`: the named file now exists with empty
content (truncation), other files unchanged. -/
def pyOpenW (fs : String → Option String) (name : String) : String → Option String :=
  fun n => if n = name then some "" else fs n

/-- Shard opening in the static scanner (`gather_metadata` line
`with open(output_csv, 'w') as csvfile`): no existence check is
performed. -/
def static_open_shard (fs : String → Option String) (shard : String) :
    Except String (String → Option String) :=
  Except.ok (pyOpenW fs shard)

/-- Shard opening in the dynamic scanner: `if os.path.exists(output_csv):
raise Exception(...)`, then `open(output_csv, 'w')`. -/
def dynamic_open_shard (fs : String → Option String) (shard : String) :
    Except String (String → Option String) :=
  if (fs shard).isSome then Except.error ("Output file " ++ shard ++ " already exists!")
  else Except.ok (pyOpenW fs shard)

/-- A filesystem on which the shard file already exists with stale
content. -/
def fs0 : String → Option String :=
  fun n => if n = "scan-w0.csv" then some "stale" else none

/-! ## C7: the dynamic supervisor
(`clueweb_metadata_scanner_dynamic.ClueWebMetadataScannerDynamic.run`) -/

structure SupState where
  done : Bool
  workersActive : List Bool
  numFinished : Nat
  currentFile : Nat
  db : List FileRow
deriving Repr

/-- The events one iteration of the supervisor loop can process: a
control-socket message (`RESUME_WORKER`, `PAUSE_WORKER`, or an unknown
type), a worker-pipe message (`MSG_FINISHED`, `MSG_PROGRESS`,
`MSG_FILE_SCANNED`), or neither (both polls timed out). -/
inductive SupEvent where
  | ctrlResume (i : Nat)
  | ctrlPause (i : Nat)
  | ctrlUnknown
  | pipeFinished (i : Nat) (ok : Bool)
  | pipeProgress (i : Nat) (n : Nat)
  | pipeScanned (i : Nat) (path : Option String)
  | timeout
deriving DecidableEq, Repr

/-- `send_file_to_worker`: lease one file from the store (sending
`MSG_NEW_FILE` or `MSG_NOFILES` down the pipe); `current_file` is
incremented by the caller when a file was sent. -/
def sendFile (s : SupState) (i : Nat) : SupState :=
  let res := get_next_batch s.db ("clueweb_metadata_scanner-worker" ++ toString i) 1
  if res.1.2 = [] then { s with db := res.2 }
  else { s with db := res.2, currentFile := s.currentFile + 1 }

/-- One iteration of `ClueWebMetadataScannerDynamic.run`.  No branch
assigns `done`; `MSG_FINISHED` only increments `num_finished`. -/
def supervisor_step (s : SupState) (e : SupEvent) : SupState :=
  match e with
  | .ctrlResume i =>
      if s.workersActive.length ≤ i then s
      else sendFile { s with workersActive := s.workersActive.set i true } i
  | .ctrlPause i =>
      if s.workersActive.length ≤ i then s
      else { s with workersActive := s.workersActive.set i false }
  | .ctrlUnknown => s
  | .pipeFinished _ _ => { s with numFinished := s.numFinished + 1 }
  | .pipeProgress _ _ => s
  | .pipeScanned i content =>
      let s1 := match content with
        | some p => { s with db := complete_batch_files s.db [p] }
        | none => s
      if s1.workersActive.getD i false then sendFile s1 i else s1
  | .timeout => s

/-- The supervisor's initial state (`__init__`): `done = False`, every
worker paused. -/
def supervisor_init (procs : Nat) (db : List FileRow) : SupState :=
  { done := false, workersActive := List.replicate procs false, numFinished := 0,
    currentFile := 0, db := db }

def supervisor_run (s : SupState) (events : List SupEvent) : SupState :=
  events.foldl supervisor_step s

/-! ## C8: the k-way merger (`clueweb_heap_sort.run`, `File.read_line`)

Lines are `List Char` (Python strings).  A heap entry is the tuple
`(key, line, file)` pushed by the source, with the `File` object
represented by the file's index in the input directory listing.
`heapq`'s binary min-heap is modelled as an ordered list: `heappush` is
ordered insertion (comparisons follow Python tuple comparison, which
raises `TypeError` — here `none` — when it falls through to comparing
two distinct `File` objects), `heappop` takes the head.  `File.read_line`
returning `None` at EOF is the `[]` case of the remaining-lines list. -/

/-- `line.split(",")[0]`: the first comma-delimited field. -/
def pyKey (l : List Char) : List Char := l.takeWhile (fun c => c ≠ ',')

/-- Python comparison of two heap tuples `(key, line, File)`: compare
keys, then lines, then the `File` objects — the last comparison is a
`TypeError` (`none`) unless the two objects are identical. -/
def entryCmp (a b : List Char × List Char × Nat) : Option Bool :=
  if a.1 ≠ b.1 then some (decide (a.1 < b.1))
  else if a.2.1 ≠ b.2.1 then some (decide (a.2.1 < b.2.1))
  else if a.2.2 = b.2.2 then some false
  else none

/-- `heapq.heappush` modelled as ordered insertion: walk the sorted
list, propagating a `TypeError` from any comparison. -/
def insertEntry (e : List Char × List Char × Nat) :
    List (List Char × List Char × Nat) → Option (List (List Char × List Char × Nat))
  | [] => some [e]
  | x :: xs =>
    match entryCmp e x with
    | none => none
    | some true => some (e :: x :: xs)
    | some false => (insertEntry e xs).map (fun h => x :: h)

/-- Python `enumerate`, used to stand for the identity of the `File`
objects in the order the heap-fill loop visits them. -/
def enumFrom : Nat → List (List (List Char)) → List (Nat × List (List Char))
  | _, [] => []
  | i, f :: fs => (i, f) :: enumFrom (i + 1) fs

/-- The heap-fill loop of `clueweb_heap_sort.run`: for every input file,
read its first line and push `(line.split(",")[0], line, f)`.  An empty
file makes `read_line` return `None` and `None.split(",")` raise
(`none`); a comparison `TypeError` during a push also raises. -/
def fillAux : List (Nat × List (List Char)) → List (List Char × List Char × Nat) →
    Option (List (List Char × List Char × Nat))
  | [], heap => some heap
  | (_, []) :: _, _ => none
  | (i, l :: _) :: rest, heap =>
    match insertEntry (pyKey l, l, i) heap with
    | none => none
    | some h' => fillAux rest h'

/-- The merge loop: pop the minimum `(key, line, file)`, write `line`,
read the next line from that file and push it if the file is not
exhausted.  `fuel` only bounds the iteration count (the caller supplies
more fuel than the total number of heap entries and pending lines, and
the spec proves that is enough), so the `0` case is never reached from
`heapSortRun`. -/
def mergeLoopF : Nat → List (List Char × List Char × Nat) → List (List (List Char)) →
    Option (List (List Char))
  | 0, _, _ => none
  | _ + 1, [], _ => some []
  | fuel + 1, e :: rest, files =>
    match files[e.2.2]? with
    | none => none
    | some [] =>
      match mergeLoopF fuel rest files with
      | none => none
      | some out => some (e.2.1 :: out)
    | some (l' :: ls) =>
      match insertEntry (pyKey l', l', e.2.2) rest with
      | none => none
      | some h' =>
        match mergeLoopF fuel h' (files.set e.2.2 ls) with
        | none => none
        | some out => some (e.2.1 :: out)

/-- Embedding of `clueweb_heap_sort.run` on the directory's file
contents: fill the heap with each file's first line, then merge;
`none` models an uncaught exception. -/
def heapSortRun (inputs : List (List (List Char))) : Option (List (List Char)) :=
  match fillAux (enumFrom 0 inputs) [] with
  | none => none
  | some heap =>
    mergeLoopF (heap.length + ((inputs.map (fun f => f.drop 1)).map List.length).sum + 1)
      heap (inputs.map (fun f => f.drop 1))

/-- The total order underlying Python's comparison of the heap tuples
(key, then line, then file index). -/
def entLe (a b : List Char × List Char × Nat) : Prop :=
  a.1 < b.1 ∨ (a.1 = b.1 ∧ (a.2.1 < b.2.1 ∨ (a.2.1 = b.2.1 ∧ a.2.2 ≤ b.2.2)))

/-- Non-decreasing first fields. -/
def keyLe (a b : List Char) : Prop := pyKey a ≤ pyKey b

/-- `keyLe` is decidable (key comparison on `List Char`). -/
instance : DecidableRel keyLe := fun a b => (inferInstance : Decidable (pyKey a ≤ pyKey b))

/-! ### Lemmas about the fixed-width decimal rendering -/

theorem padW_length (w n : Nat) : (padW w n).length = w := by
  simp [padW]

theorem padW_succ (w n : Nat) :
    padW (w + 1) n = digitChr (n / 10 ^ w % 10) :: padW w n := by
  simp only [padW, List.range_succ_eq_map, List.map_cons, List.map_map]
  refine congrArg₂ List.cons ?_ ?_
  · simp
  · apply List.map_congr_left
    intro i _
    have h : w - (i + 1) = w - 1 - i := by omega
    simp [Function.comp, h]

theorem pyIsDigit_digitChr {d : Nat} (h : d < 10) :
    pyIsDigit (digitChr d) = true := by
  interval_cases d <;> decide

theorem digitVal_digitChr {d : Nat} (h : d < 10) : digitVal (digitChr d) = d := by
  interval_cases d <;> decide

theorem padW_all_digits (w n : Nat) : (padW w n).all pyIsDigit = true := by
  induction w generalizing n with
  | zero => rfl
  | succ w ih =>
    rw [padW_succ, List.all_cons, ih, pyIsDigit_digitChr (Nat.mod_lt _ (by norm_num))]
    rfl

theorem foldl_parse_padW (w n a : Nat) :
    (padW w n).foldl (fun acc c => 10 * acc + digitVal c) a =
      a * 10 ^ w + n % 10 ^ w := by
  induction w generalizing a with
  | zero => simp [padW, Nat.mod_one]
  | succ w ih =>
    rw [padW_succ, List.foldl_cons, ih,
      digitVal_digitChr (Nat.mod_lt _ (by norm_num))]
    have h10 : (10 : Nat) ^ (w + 1) = 10 ^ w * 10 := pow_succ 10 w
    have hmod : n % 10 ^ (w + 1) = n % 10 ^ w + 10 ^ w * (n / 10 ^ w % 10) := by
      rw [h10, Nat.mod_mul]
    rw [hmod, h10]
    ring

theorem parseDigits_padW (w n : Nat) : parseDigits (padW w n) = n % 10 ^ w := by
  simpa using foldl_parse_padW w n 0

theorem pyInt_padW {w : Nat} (hw : 0 < w) (n : Nat) :
    pyInt (padW w n) = some (n % 10 ^ w) := by
  rw [pyInt, if_pos, parseDigits_padW]
  refine ⟨?_, padW_all_digits w n⟩
  intro h
  have := padW_length w n
  rw [h] at this
  simp at this
  omega

/-! ### Structure of offset tables -/

theorem offsetLine_length (n : Nat) : (offsetLine n).length = 11 := by
  simp [offsetLine, pad10, padW_length]

theorem offsetTable_cons (o : Nat) (rest : List Nat) :
    offsetTable (o :: rest) = offsetLine o ++ offsetTable rest := by
  simp [offsetTable]

theorem offsetTable_drop (k : Nat) (offsets : List Nat) :
    (offsetTable offsets).drop (k * 11) = offsetTable (offsets.drop k) := by
  induction k generalizing offsets with
  | zero => simp
  | succ k ih =>
    cases offsets with
    | nil => simp [offsetTable]
    | cons o rest =>
      have h1 : (offsetTable (o :: rest)).drop 11 = offsetTable rest := by
        rw [offsetTable_cons, ← offsetLine_length o]
        exact List.drop_left _ _
      have h2 : ((offsetTable (o :: rest)).drop 11).drop (k * 11) =
          (offsetTable (o :: rest)).drop (11 + k * 11) := List.drop_drop ..
      rw [Nat.succ_mul, Nat.add_comm (k * 11) 11, ← h2, h1, ih]
      simp

theorem offsetTable_take_two (o1 o2 : Nat) (rest : List Nat) :
    (offsetTable (o1 :: o2 :: rest)).take 22 = offsetLine o1 ++ offsetLine o2 := by
  rw [offsetTable_cons, offsetTable_cons, ← List.append_assoc]
  have hlen : (offsetLine o1 ++ offsetLine o2).length = 22 := by
    rw [List.length_append, offsetLine_length, offsetLine_length]
  rw [List.take_append_of_le_length (by rw [hlen]), ← hlen, List.take_length]

theorem entry_take_10 (o1 o2 : Nat) :
    (offsetLine o1 ++ offsetLine o2).take 10 = pad10 o1 := by
  rw [offsetLine, List.append_assoc,
    List.take_append_of_le_length (by simp [pad10, padW_length]), ← padW_length 10 o1]
  exact List.take_length _

theorem entry_drop_12 (o1 o2 : Nat) :
    (offsetLine o1 ++ offsetLine o2).drop 12 = padW 9 o2 ++ ['\n'] := by
  have h11 : (offsetLine o1 ++ offsetLine o2).drop 11 = offsetLine o2 := by
    rw [← offsetLine_length o1]
    exact List.drop_left _ _
  have h12 : (offsetLine o1 ++ offsetLine o2).drop 12 =
      ((offsetLine o1 ++ offsetLine o2).drop 11).drop 1 := by
    rw [List.drop_drop]
  rw [h12, h11, offsetLine, pad10]
  have : padW 10 o2 = digitChr (o2 / 10 ^ 9 % 10) :: padW 9 o2 := padW_succ 9 o2
  rw [this]
  rfl

/-- C1 (amended): for every 0-based record index `i`, the offset reader
seeks to byte position `11·i` in the offset table, reads 22 bytes, and
parses character positions 0..9 as the start offset and positions 12..20
as the end offset; on a table holding one 10-digit newline-terminated
offset value per line (record `i` spanning the values on lines `i` and
`i+1`, end values below `10^9` so that the dropped leading digit is a
zero), lookup of record index `i` returns the pair of values on lines
`i` and `i+1`. -/
theorem claim_C1_amended (offsets : List Nat) (i o1 o2 : Nat)
    (h1 : offsets[i]? = some o1) (h2 : offsets[i + 1]? = some o2)
    (ho1 : o1 < 10 ^ 10) (ho2 : o2 < 10 ^ 9) :
    get_offset (offsetTable offsets) i = some (o1, o2) := by
  have hi1 : i + 1 < offsets.length := (List.getElem?_eq_some_iff.mp h2).1
  have hi : i < offsets.length := by omega
  have hdrop : offsets.drop i = o1 :: o2 :: offsets.drop (i + 2) := by
    rw [List.drop_eq_getElem_cons hi, List.drop_eq_getElem_cons hi1]
    have e1 : offsets[i] = o1 := by
      have := List.getElem?_eq_getElem hi
      rw [h1] at this; exact Option.some.inj this.symm
    have e2 : offsets[i + 1] = o2 := by
      have := List.getElem?_eq_getElem hi1
      rw [h2] at this; exact Option.some.inj this.symm
    rw [e1, e2]
  have hdata : ((offsetTable offsets).drop (i * OFFSET_SIZE_BYTES)).take
      (OFFSET_SIZE_BYTES * 2) = offsetLine o1 ++ offsetLine o2 := by
    show ((offsetTable offsets).drop (i * 11)).take 22 = _
    rw [offsetTable_drop i offsets, hdrop, offsetTable_take_two]
  have hlen : (offsetLine o1 ++ offsetLine o2).length = 22 := by
    rw [List.length_append, offsetLine_length, offsetLine_length]
  rw [get_offset]
  simp only [hdata, hlen]
  rw [if_neg (by norm_num [OFFSET_SIZE_BYTES])]
  have hstart : (offsetLine o1 ++ offsetLine o2).take (OFFSET_SIZE_BYTES - 1) =
      pad10 o1 := entry_take_10 o1 o2
  have hend : ((offsetLine o1 ++ offsetLine o2).drop (OFFSET_SIZE_BYTES + 1)).take
      (OFFSET_SIZE_BYTES * 2 - 1 - (OFFSET_SIZE_BYTES + 1)) = padW 9 o2 := by
    show ((offsetLine o1 ++ offsetLine o2).drop 12).take 9 = _
    rw [entry_drop_12, List.take_append_of_le_length (by rw [padW_length]),
      ← padW_length 9 o2]
    exact List.take_length _
  rw [hstart, hend, pad10, pyInt_padW (by norm_num), pyInt_padW (by norm_num),
    Nat.mod_eq_of_lt ho1, Nat.mod_eq_of_lt ho2]
  rfl

/-- Witness for C1 (amended) at the concrete 44-byte offset table whose
lines hold the boundary values 0, 100, 250, 400: record index 1 resolves
to the byte range (100, 250). -/
theorem claim_C1_amended_witness :
    get_offset (offsetTable [0, 100, 250, 400]) 1 = some (100, 250) :=
  claim_C1_amended [0, 100, 250, 400] 1 100 250 (by decide) (by decide)
    (by decide) (by decide)

/-! ### Lemmas about the Python string primitives -/

theorem pyReplaceAux_nil (p r : List Char) (fuel : Nat) :
    pyReplaceAux p r fuel [] = [] := by
  cases fuel <;> rfl

theorem pyReplaceAux_last (p r : List Char) (hp : p ≠ []) :
    ∀ (pre : List Char) (fuel : Nat), (pre ++ p).length ≤ fuel →
      (∀ k < pre.length, ¬ p.isPrefixOf ((pre ++ p).drop k)) →
      pyReplaceAux p r fuel (pre ++ p) = pre ++ r := by
  intro pre
  induction pre with
  | nil =>
    intro fuel hfuel _
    rcases p with _ | ⟨a, as⟩
    · exact absurd rfl hp
    · cases fuel with
      | zero => simp at hfuel
      | succ f =>
        rw [List.nil_append, pyReplaceAux,
          if_pos ⟨hp, List.isPrefixOf_iff_prefix.mpr List.prefix_rfl⟩,
          List.drop_length, pyReplaceAux_nil]
        simp
  | cons c cs ih =>
    intro fuel hfuel hocc
    cases fuel with
    | zero => simp at hfuel
    | succ f =>
      have hc : (c :: cs) ++ p = c :: (cs ++ p) := rfl
      rw [hc, pyReplaceAux, if_neg, List.cons_append]
      · have h0 := ih f (by simp at hfuel ⊢; omega)
          (fun k hk => by
            have := hocc (k + 1) (by simp; omega)
            simpa using this)
        rw [h0]
      · rintro ⟨-, hpre⟩
        exact hocc 0 (by simp) (by simpa using hpre)

/-- Replace-all on a string whose only occurrence of the (non-empty)
pattern is its trailing suffix yields the prefix followed by the
replacement. -/
theorem pyReplace_last (pre p r : List Char) (hp : p ≠ [])
    (hocc : ∀ k < pre.length, ¬ p.isPrefixOf ((pre ++ p).drop k)) :
    pyReplace (pre ++ p) p r = pre ++ r :=
  pyReplaceAux_last p r hp pre (pre ++ p).length le_rfl hocc

theorem pySplit_no_sep (sep : Char) (a : List Char)
    (ha : ∀ c ∈ a, c ≠ sep) : pySplit sep a = [a] := by
  induction a with
  | nil => rfl
  | cons c cs ih =>
    rw [pySplit, if_neg (ha c (by simp)), ih (fun x hx => ha x (by simp [hx]))]

theorem pySplit_sep_append (sep : Char) (a rest : List Char)
    (ha : ∀ c ∈ a, c ≠ sep) :
    pySplit sep (a ++ sep :: rest) = a :: pySplit sep rest := by
  induction a with
  | nil => simp [pySplit]
  | cons c cs ih =>
    rw [List.cons_append, pySplit, if_neg (ha c (by simp)),
      ih (fun x hx => ha x (by simp [hx]))]

theorem pyIsDigit_ne_sep {c : Char} (h : pyIsDigit c = true) : c ≠ '-' := by
  intro hc
  rw [hc] at h
  exact absurd h (by decide)

theorem find_first_digit_append (lang : List Char) (d : Char) (rest : List Char)
    (hlang : ∀ c ∈ lang, pyIsDigit c = false) (hd : pyIsDigit d = true) :
    find_first_digit (lang ++ d :: rest) = (lang.length : Int) := by
  induction lang with
  | nil => simp [find_first_digit, hd]
  | cons c cs ih =>
    rw [List.cons_append, find_first_digit]
    simp only [hlang c (by simp), Bool.false_eq_true, if_false]
    rw [ih (fun x hx => hlang x (by simp [hx])), if_neg (by omega)]
    simp only [List.length_cons]
    push_cast
    ring

/-- Decoding a well-formed (`clueweb22-`-prefixed) ID into its
`(language code, stream ID, subdir, base filename)` components. -/
theorem id_to_path_components_valid (lang : List Char) (d1 d2 : Char)
    (ds fileseq recordseq : List Char)
    (hlang : lang.all (fun c => !pyIsDigit c && c ≠ '-') = true)
    (hds : (d1 :: d2 :: ds).all pyIsDigit = true)
    (hfs : fileseq.all (fun c => c ≠ '-') = true)
    (hrs : recordseq.all (fun c => c ≠ '-') = true) :
    id_to_path_components
      ("clueweb22-".data ++ (lang ++ d1 :: d2 :: ds) ++ '-' :: fileseq ++ '-' :: recordseq) =
      some (lang, lang ++ [d1, d2], lang ++ d1 :: d2 :: ds,
        (lang ++ d1 :: d2 :: ds) ++ '-' :: fileseq) := by
  simp only [List.all_eq_true, Bool.and_eq_true, Bool.not_eq_true'] at hlang hds hfs hrs
  have hnodash : ∀ c ∈ lang ++ d1 :: d2 :: ds, c ≠ '-' := by
    intro c hc
    rcases List.mem_append.mp hc with h | h
    · exact decide_eq_true_eq.mp (hlang c h).2
    · exact pyIsDigit_ne_sep (hds c h)
  have hfs' : ∀ c ∈ fileseq, c ≠ '-' := fun c hc => decide_eq_true_eq.mp (hfs c hc)
  have hrs' : ∀ c ∈ recordseq, c ≠ '-' := fun c hc => decide_eq_true_eq.mp (hrs c hc)
  rw [id_to_path_components]
  have hpfx : ("clueweb22-".data).isPrefixOf
      ("clueweb22-".data ++ (lang ++ d1 :: d2 :: ds) ++ '-' :: fileseq ++ '-' :: recordseq) = true := by
    rw [List.isPrefixOf_iff_prefix]
    rw [List.append_assoc, List.append_assoc]
    exact List.prefix_append _ _
  simp only [hpfx, if_true]
  have hdrop : ("clueweb22-".data ++ (lang ++ d1 :: d2 :: ds) ++ '-' :: fileseq ++ '-' :: recordseq).drop 10 =
      (lang ++ d1 :: d2 :: ds) ++ '-' :: fileseq ++ '-' :: recordseq := by
    rw [List.append_assoc, List.append_assoc]
    have : ("clueweb22-".data).length = 10 := by decide
    rw [← this, List.drop_left, ← List.append_assoc]
  have e1 : (lang ++ d1 :: d2 :: ds) ++ ('-' :: fileseq) ++ ('-' :: recordseq) =
      (lang ++ d1 :: d2 :: ds) ++ ('-' :: (fileseq ++ ('-' :: recordseq))) := by
    simp
  rw [hdrop, e1]
  rw [pySplit_sep_append '-' _ _ hnodash, pySplit_sep_append '-' _ _ hfs',
    pySplit_no_sep '-' _ hrs']
  have hffd : find_first_digit (lang ++ d1 :: d2 :: ds) = (lang.length : Int) :=
    find_first_digit_append lang d1 (d2 :: ds)
      (fun c hc => (hlang c hc).1) (hds d1 (by simp))
  simp only [hffd]
  have hslice1 : pySliceTo (lang ++ d1 :: d2 :: ds) (lang.length : Int) = lang := by
    rw [pySliceTo, if_neg (by omega)]
    simp [List.take_left]
  have hslice2 : pySliceTo (lang ++ d1 :: d2 :: ds) ((lang.length : Int) + 2) =
      lang ++ [d1, d2] := by
    rw [pySliceTo, if_neg (by omega)]
    have h1 : (((lang.length : Int) + 2)).toNat = lang.length + 2 := by omega
    rw [h1]
    have h2 : lang ++ d1 :: d2 :: ds = (lang ++ [d1, d2]) ++ ds := by simp
    have h3 : (lang ++ [d1, d2]).length = lang.length + 2 := by simp
    rw [h2, ← h3, List.take_left]
  rw [hslice1, hslice2]

theorem pyJoin_six (a b c d e f : List Char) :
    pyJoin [a, b, c, d, e, f] =
      a ++ '/' :: (b ++ '/' :: (c ++ '/' :: (d ++ '/' :: (e ++ '/' :: f)))) := rfl

/-- C8 (amended): for every valid ClueWeb22-ID and every corpus root,
the decoder returns the container path
`<root>/<kind>/<lang>/<stream>/<subdir>/<subdir>-<fileseq>.<ext>` with
`ext = json.gz` for kind `txt` and `warc.gz` for kind `html`; the offset
path is obtained by replacing every occurrence of `json.gz` (txt)
respectively `gz` (html) in the container path with `offset`, which
coincides with replacing only the trailing extension exactly when the
pattern occurs nowhere else in the path (the `hoccT`/`hoccH`
hypotheses). -/
theorem claim_C8_amended (root lang : List Char) (d1 d2 : Char)
    (ds fileseq recordseq stemT stemH : List Char)
    (hlang : lang.all (fun c => !pyIsDigit c && c ≠ '-') = true)
    (hds : (d1 :: d2 :: ds).all pyIsDigit = true)
    (hfs : fileseq.all (fun c => c ≠ '-') = true)
    (hrs : recordseq.all (fun c => c ≠ '-') = true)
    (hstemT : stemT = root ++ '/' :: ("txt".data ++ '/' :: (lang ++ '/' ::
      ((lang ++ [d1, d2]) ++ '/' :: ((lang ++ d1 :: d2 :: ds) ++ '/' ::
        (((lang ++ d1 :: d2 :: ds) ++ ('-' :: fileseq)) ++ ['.']))))))
    (hstemH : stemH = root ++ '/' :: ("html".data ++ '/' :: (lang ++ '/' ::
      ((lang ++ [d1, d2]) ++ '/' :: ((lang ++ d1 :: d2 :: ds) ++ '/' ::
        (((lang ++ d1 :: d2 :: ds) ++ ('-' :: fileseq)) ++ ".warc.".data))))))
    (hoccT : ∀ k < stemT.length,
      ¬ ("json.gz".data).isPrefixOf ((stemT ++ "json.gz".data).drop k))
    (hoccH : ∀ k < stemH.length,
      ¬ ("gz".data).isPrefixOf ((stemH ++ "gz".data).drop k)) :
    id_to_data_file_path root
        ("clueweb22-".data ++ (lang ++ d1 :: d2 :: ds) ++ '-' :: fileseq ++ '-' :: recordseq)
        "txt".data =
      some (stemT ++ "json.gz".data, stemT ++ "offset".data) ∧
    id_to_data_file_path root
        ("clueweb22-".data ++ (lang ++ d1 :: d2 :: ds) ++ '-' :: fileseq ++ '-' :: recordseq)
        "html".data =
      some (stemH ++ "gz".data, stemH ++ "offset".data) := by
  have hcomp := id_to_path_components_valid lang d1 d2 ds fileseq recordseq hlang hds hfs hrs
  constructor
  · rw [id_to_data_file_path, hcomp]
    show some (pyJoin [root, "txt".data, lang, lang ++ [d1, d2],
        lang ++ d1 :: d2 :: ds,
        ((lang ++ d1 :: d2 :: ds) ++ ('-' :: fileseq)) ++ ('.' :: "json.gz".data)],
      pyReplace (pyJoin [root, "txt".data, lang, lang ++ [d1, d2],
        lang ++ d1 :: d2 :: ds,
        ((lang ++ d1 :: d2 :: ds) ++ ('-' :: fileseq)) ++ ('.' :: "json.gz".data)])
        ("json.gz".data) ("offset".data)) = _
    have hpath : pyJoin [root, "txt".data, lang, lang ++ [d1, d2],
        lang ++ d1 :: d2 :: ds,
        ((lang ++ d1 :: d2 :: ds) ++ ('-' :: fileseq)) ++ ('.' :: "json.gz".data)] =
        stemT ++ "json.gz".data := by
      rw [pyJoin_six, hstemT]
      simp
    rw [hpath, pyReplace_last stemT _ _ (by decide) hoccT]
  · rw [id_to_data_file_path, hcomp]
    show some (pyJoin [root, "html".data, lang, lang ++ [d1, d2],
        lang ++ d1 :: d2 :: ds,
        ((lang ++ d1 :: d2 :: ds) ++ ('-' :: fileseq)) ++ ('.' :: "warc.gz".data)],
      pyReplace (pyJoin [root, "html".data, lang, lang ++ [d1, d2],
        lang ++ d1 :: d2 :: ds,
        ((lang ++ d1 :: d2 :: ds) ++ ('-' :: fileseq)) ++ ('.' :: "warc.gz".data)])
        ("gz".data) ("offset".data)) = _
    have hpath : pyJoin [root, "html".data, lang, lang ++ [d1, d2],
        lang ++ d1 :: d2 :: ds,
        ((lang ++ d1 :: d2 :: ds) ++ ('-' :: fileseq)) ++ ('.' :: "warc.gz".data)] =
        stemH ++ "gz".data := by
      rw [pyJoin_six, hstemH]
      simp
    rw [hpath, pyReplace_last stemH _ _ (by decide) hoccH]

/-- Witness for C8 (amended) at the ID `clueweb22-en0003-18-00042` and
root `root`: the container and offset paths for both kinds. -/
theorem claim_C8_amended_witness :
    id_to_data_file_path "root".data "clueweb22-en0003-18-00042".data "txt".data =
      some ("root/txt/en/en00/en0003/en0003-18.".data ++ "json.gz".data,
        "root/txt/en/en00/en0003/en0003-18.".data ++ "offset".data) ∧
    id_to_data_file_path "root".data "clueweb22-en0003-18-00042".data "html".data =
      some ("root/html/en/en00/en0003/en0003-18.warc.".data ++ "gz".data,
        "root/html/en/en00/en0003/en0003-18.warc.".data ++ "offset".data) :=
  claim_C8_amended "root".data "en".data '0' '0' "03".data "18".data "00042".data
    "root/txt/en/en00/en0003/en0003-18.".data
    "root/html/en/en00/en0003/en0003-18.warc.".data
    (by decide) (by decide) (by decide) (by decide) (by decide) (by decide)
    (by decide) (by decide)

/-- C8 (counterexample): with corpus root `gz` and kind `html`, the
decoder's `path.replace('gz', 'offset')` also rewrites the `gz` inside
the root, so the offset path is
`offset/html/en/en00/en0000/en0000-00.warc.offset` instead of the
claimed `gz/html/en/en00/en0000/en0000-00.warc.offset`. -/
theorem claim_C8_counterexample :
    id_to_data_file_path "gz".data "clueweb22-en0000-00-00000".data "html".data =
      some ("gz/html/en/en00/en0000/en0000-00.warc.gz".data,
        "offset/html/en/en00/en0000/en0000-00.warc.offset".data) ∧
    (id_to_data_file_path "gz".data "clueweb22-en0000-00-00000".data "html".data).map
        Prod.snd ≠
      some ("gz/html/en/en00/en0000/en0000-00.warc.offset".data) := by
  exact ⟨by decide, by decide⟩

/-! ### The file-state store claims -/

theorem selectBatch_sublist (db : List FileRow) (n : Nat) :
    List.Sublist (selectBatch db n) db :=
  (List.take_sublist _ _).trans (List.filter_sublist _)

/-- C3: for every store state (in ascending-id order), every job id and
every `n`, `get_next_batch` selects the up-to-`n` rows with state
`NOT_STARTED` of smallest id in ascending id order, sets their state to
`IN_PROGRESS` and their job to the job id, and returns those rows' ids
and paths; it returns two empty lists when no `NOT_STARTED` row
remains.  In particular, on the 5-row store of scenario S3,
`get_next_batch "A" 3` returns ids [1,2,3], then `get_next_batch "B" 3`
returns [4,5], and after `clear_batch "A"`, `get_next_batch "B" 5`
returns [1,2,3]. -/
theorem claim_C3 (db : List FileRow) (j : String) (n : Nat)
    (hsort : db.Pairwise (fun a b => a.id < b.id)) :
    ((∀ (k i : Nat) (p : String), ((get_next_batch db j n).1.1)[k]? = some i →
        ((get_next_batch db j n).1.2)[k]? = some p →
        ∃ r ∈ db, r.id = i ∧ r.path = p ∧ r.state = NOT_STARTED) ∧
      ((get_next_batch db j n).1.1.Pairwise (· < ·)) ∧
      ((get_next_batch db j n).1.1.length =
        min n (db.filter (fun r => r.state = NOT_STARTED)).length) ∧
      (∀ r ∈ db, r.state = NOT_STARTED → r.id ∉ (get_next_batch db j n).1.1 →
        ∀ i ∈ (get_next_batch db j n).1.1, i < r.id) ∧
      (∀ r ∈ db,
        (r.id ∈ (get_next_batch db j n).1.1 →
          { r with state := IN_PROGRESS, job := some j } ∈ (get_next_batch db j n).2) ∧
        (r.id ∉ (get_next_batch db j n).1.1 → r ∈ (get_next_batch db j n).2)) ∧
      ((∀ r ∈ db, r.state ≠ NOT_STARTED) →
        (get_next_batch db j n).1.1 = [] ∧ (get_next_batch db j n).1.2 = [])) ∧
    ((get_next_batch store5 "A" 3).1.1 = [1, 2, 3] ∧
      (get_next_batch (get_next_batch store5 "A" 3).2 "B" 3).1.1 = [4, 5] ∧
      (get_next_batch
        (clear_batch (get_next_batch (get_next_batch store5 "A" 3).2 "B" 3).2 "A")
        "B" 5).1.1 = [1, 2, 3]) := by
  have hids : (get_next_batch db j n).1.1 = (selectBatch db n).map (fun r => r.id) := rfl
  have hpaths : (get_next_batch db j n).1.2 = (selectBatch db n).map (fun r => r.path) := rfl
  have hdb : (get_next_batch db j n).2 = db.map (fun r =>
      if r.id ∈ (selectBatch db n).map (fun r => r.id) then
        { r with state := IN_PROGRESS, job := some j } else r) := rfl
  have hselmem : ∀ r ∈ selectBatch db n, r ∈ db ∧ r.state = NOT_STARTED := by
    intro r hr
    have hrf : r ∈ db.filter (fun r => r.state = NOT_STARTED) := List.mem_of_mem_take hr
    have := List.mem_filter.mp hrf
    exact ⟨this.1, by simpa using this.2⟩
  have hselpw : (selectBatch db n).Pairwise (fun a b => a.id < b.id) :=
    hsort.sublist (selectBatch_sublist db n)
  refine ⟨⟨?_, ?_, ?_, ?_, ?_, ?_⟩, by decide⟩
  · intro k i p hi hp
    rw [hids, List.getElem?_map] at hi
    rw [hpaths, List.getElem?_map] at hp
    rcases hk : (selectBatch db n)[k]? with _ | r
    · rw [hk] at hi; exact absurd hi (by simp)
    · rw [hk] at hi hp
      have hr : r ∈ selectBatch db n := by
        obtain ⟨hlt, heq⟩ := List.getElem?_eq_some_iff.mp hk
        exact heq ▸ List.getElem_mem hlt
      obtain ⟨hrdb, hrs⟩ := hselmem r hr
      exact ⟨r, hrdb, by simpa using hi, by simpa using hp, hrs⟩
  · rw [hids]
    exact List.pairwise_map.mpr hselpw
  · rw [hids, List.length_map, selectBatch, List.length_take]
  · intro r hrdb hrs hrni i hi
    rw [hids] at hrni hi
    have hrf : r ∈ db.filter (fun r => r.state = NOT_STARTED) :=
      List.mem_filter.mpr ⟨hrdb, by simpa using hrs⟩
    have hsplit := List.take_append_drop n (db.filter (fun r => r.state = NOT_STARTED))
    have hpwf : (db.filter (fun r => r.state = NOT_STARTED)).Pairwise
        (fun a b => a.id < b.id) := hsort.sublist (List.filter_sublist _)
    rw [← hsplit] at hpwf hrf
    have hcross := (List.pairwise_append.mp hpwf).2.2
    obtain ⟨x, hx, hxi⟩ := List.mem_map.mp hi
    have hrdrop : r ∈ (db.filter (fun r => r.state = NOT_STARTED)).drop n := by
      rcases List.mem_append.mp hrf with h | h
      · exact absurd (List.mem_map_of_mem _ h) (by rw [selectBatch] at hrni; exact hrni)
      · exact h
    have := hcross x hx r hrdrop
    omega
  · intro r hrdb
    constructor
    · intro hin
      rw [hdb]
      refine List.mem_map.mpr ⟨r, hrdb, ?_⟩
      rw [if_pos (by rw [hids] at hin; exact hin)]
    · intro hnin
      rw [hdb]
      refine List.mem_map.mpr ⟨r, hrdb, ?_⟩
      rw [if_neg (by rw [hids] at hnin; exact hnin)]
  · intro hall
    have hfe : db.filter (fun r => r.state = NOT_STARTED) = [] := by
      rw [List.filter_eq_nil_iff]
      intro r hr
      simpa using hall r hr
    rw [hids, hpaths, selectBatch, hfe]
    simp

/-- Witness for C3 at the concrete scenario-S3 store. -/
theorem claim_C3_witness : (get_next_batch store5 "A" 3).1.1 = [1, 2, 3] :=
  (claim_C3 store5 "A" 3 (by decide)).2.1

/-- C4 (counterexample): lease a single row to job "A", complete the
job, then clear it: `complete_batch` leaves the job column in place, so
`clear_batch "A"` matches the DONE row and resets it to `NOT_STARTED` —
the transition the claim rules out. -/
theorem claim_C4_counterexample :
    ((applyOps (generate [("p", 0)]) [.nextBatch "A" 1, .completeBatch "A"]).map
        (fun r => r.state) = [DONE]) ∧
    ((applyOps (generate [("p", 0)])
        [.nextBatch "A" 1, .completeBatch "A", .clearBatch "A"]).map
        (fun r => r.state) = [NOT_STARTED]) :=
  ⟨by decide, by decide⟩

/-- C4 (amended): rows created by `generate` start `NOT_STARTED` with no
job; each store operation changes a row's state only along
`NOT_STARTED → IN_PROGRESS` (leasing, which records the job id),
any state `→ DONE` (`complete_batch` / `complete_batch_files`, leaving
the job in place), or any held state `→ NOT_STARTED` with the job
cleared to the empty string (`clear_batch`, which also matches `DONE`
rows still holding the job — so `DONE → NOT_STARTED` is possible). -/
theorem claim_C4_amended :
    (∀ (entries : List (String × Nat)) (r : FileRow), r ∈ generate entries →
      r.state = NOT_STARTED ∧ r.job = none) ∧
    (∀ (db : List FileRow) (op : DbOp) (k : Nat) (r r' : FileRow),
      (db.map (fun r => r.id)).Nodup →
      db[k]? = some r → (applyOp db op)[k]? = some r' →
      r' = r ∨
      (r.state = NOT_STARTED ∧ r'.state = IN_PROGRESS ∧
        ∃ j n, op = .nextBatch j n ∧ r'.job = some j) ∨
      (r'.state = DONE ∧ r'.job = r.job ∧
        ((∃ j, op = .completeBatch j) ∨ ∃ fs, op = .completeBatchFiles fs)) ∨
      (r'.state = NOT_STARTED ∧ r'.job = some "" ∧
        ∃ j, op = .clearBatch j ∧ r.job = some j)) := by
  constructor
  · intro entries r hr
    obtain ⟨e, -, he⟩ := List.mem_map.mp hr
    rw [← he]
    exact ⟨rfl, rfl⟩
  · intro db op k r r' hnodup h1 h2
    have hrdb : r ∈ db := by
      obtain ⟨hlt, heq⟩ := List.getElem?_eq_some_iff.mp h1
      exact heq ▸ List.getElem_mem hlt
    cases op with
    | nextBatch j n =>
      have h2' : ((db.map (fun r =>
          if r.id ∈ (selectBatch db n).map (fun r => r.id) then
            { r with state := IN_PROGRESS, job := some j } else r))[k]?) = some r' := h2
      rw [List.getElem?_map, h1] at h2'
      by_cases hin : r.id ∈ (selectBatch db n).map (fun r => r.id)
      · right; left
        have hr' : r' = { r with state := IN_PROGRESS, job := some j } := by
          have h3 := Option.some.inj h2'
          simp only [] at h3
          rw [if_pos hin] at h3
          exact h3.symm
        obtain ⟨x, hx, hxid⟩ := List.mem_map.mp hin
        have hxdb := (List.mem_filter.mp (List.mem_of_mem_take hx)).1
        have hxr : x = r := List.inj_on_of_nodup_map hnodup hxdb hrdb hxid
        have hxs : x.state = NOT_STARTED := by
          have := (List.mem_filter.mp (List.mem_of_mem_take hx)).2
          simpa using this
        exact ⟨hxr ▸ hxs, by rw [hr'], j, n, rfl, by rw [hr']⟩
      · left
        have h3 := Option.some.inj h2'
        simp only [] at h3
        rw [if_neg hin] at h3
        exact h3.symm
    | completeBatch j =>
      have h2' : ((db.map (fun r =>
          if r.job = some j then { r with state := DONE } else r))[k]?) = some r' := h2
      rw [List.getElem?_map, h1] at h2'
      have hr' := Option.some.inj h2'
      simp only [] at hr'
      by_cases hj : r.job = some j
      · right; right; left
        rw [if_pos hj] at hr'
        exact ⟨by rw [← hr'], by rw [← hr'], Or.inl ⟨j, rfl⟩⟩
      · left
        rw [if_neg hj] at hr'
        exact hr'.symm
    | completeBatchFiles fs =>
      have h2' : ((db.map (fun r =>
          if r.path ∈ fs then { r with state := DONE } else r))[k]?) = some r' := h2
      rw [List.getElem?_map, h1] at h2'
      have hr' := Option.some.inj h2'
      simp only [] at hr'
      by_cases hj : r.path ∈ fs
      · right; right; left
        rw [if_pos hj] at hr'
        exact ⟨by rw [← hr'], by rw [← hr'], Or.inr ⟨fs, rfl⟩⟩
      · left
        rw [if_neg hj] at hr'
        exact hr'.symm
    | clearBatch j =>
      have h2' : ((db.map (fun r =>
          if r.job = some j then { r with state := NOT_STARTED, job := some "" } else r))[k]?) =
          some r' := h2
      rw [List.getElem?_map, h1] at h2'
      have hr' := Option.some.inj h2'
      simp only [] at hr'
      by_cases hj : r.job = some j
      · right; right; right
        rw [if_pos hj] at hr'
        exact ⟨by rw [← hr'], by rw [← hr'], j, rfl, hj⟩
      · left
        rw [if_neg hj] at hr'
        exact hr'.symm

theorem generate_ids_nodup (entries : List (String × Nat)) :
    ((generate entries).map (fun r => r.id)).Nodup := by
  have h : (generate entries).map (fun r => r.id) =
      (entries.enum.map Prod.fst).map (fun i => i + 1) := by
    rw [generate, List.map_map, List.map_map]
    rfl
  rw [h, List.enum_map_fst]
  exact (List.nodup_range _).map (fun a b => by omega)

theorem applyOp_ids (db : List FileRow) (op : DbOp) :
    (applyOp db op).map (fun r => r.id) = db.map (fun r => r.id) := by
  cases op <;>
    · show (db.map _).map _ = _
      rw [List.map_map]
      apply List.map_congr_left
      intro r _
      simp only [Function.comp_apply]
      split <;> rfl

/-- The flag bookkeeping of C10 is exact: a row's job column equals the
empty string precisely when some `clear_batch` reset it and no later
`get_next_batch` (with a non-empty job id) leased it again. -/
theorem resetFlags_spec : ∀ (ops : List DbOp) (db : List FileRow) (acc : Nat → Bool),
    (db.map (fun r => r.id)).Nodup →
    noEmptyLease ops = true →
    (∀ r ∈ db, (r.job = some "" ↔ acc r.id = true)) →
    ∀ r ∈ applyOps db ops, (r.job = some "" ↔ resetFlags db acc ops r.id = true) := by
  intro ops
  induction ops with
  | nil =>
    intro db acc _ _ hinv r hr
    exact hinv r hr
  | cons op ops ih =>
    intro db acc hnodup hne hinv r hr
    have hnodup' : ((applyOp db op).map (fun r => r.id)).Nodup := by
      rw [applyOp_ids]; exact hnodup
    have hne' : noEmptyLease ops = true := by
      cases op <;> simp [noEmptyLease] at hne ⊢ <;>
        first
          | exact hne.2
          | exact hne
    refine ih (applyOp db op) (updateFlag db op acc) hnodup' hne' ?_ r hr
    intro r' hr'
    cases op with
    | nextBatch j n =>
      have hj : j ≠ "" := by
        simp [noEmptyLease] at hne
        exact hne.1
      obtain ⟨r0, hr0, he⟩ := List.mem_map.mp hr'
      have hf := he.symm
      simp only [] at hf
      by_cases hin : r0.id ∈ (selectBatch db n).map (fun r => r.id)
      · rw [if_pos hin] at hf
        rw [hf]
        show some j = some "" ↔ updateFlag db (.nextBatch j n) acc r0.id = true
        rw [updateFlag]
        simp only [hin, if_true]
        simp [hj]
      · rw [if_neg hin] at hf
        rw [hf]
        show r0.job = some "" ↔ updateFlag db (.nextBatch j n) acc r0.id = true
        rw [updateFlag]
        simp only [hin, if_false]
        exact hinv r0 hr0
    | completeBatch j =>
      obtain ⟨r0, hr0, he⟩ := List.mem_map.mp hr'
      have hf := he.symm
      simp only [] at hf
      by_cases hj0 : r0.job = some j
      · rw [if_pos hj0] at hf
        rw [hf]
        exact hinv r0 hr0
      · rw [if_neg hj0] at hf
        rw [hf]
        exact hinv r0 hr0
    | completeBatchFiles fs =>
      obtain ⟨r0, hr0, he⟩ := List.mem_map.mp hr'
      have hf := he.symm
      simp only [] at hf
      by_cases hj0 : r0.path ∈ fs
      · rw [if_pos hj0] at hf
        rw [hf]
        exact hinv r0 hr0
      · rw [if_neg hj0] at hf
        rw [hf]
        exact hinv r0 hr0
    | clearBatch j =>
      obtain ⟨r0, hr0, he⟩ := List.mem_map.mp hr'
      have hf := he.symm
      simp only [] at hf
      by_cases hj0 : r0.job = some j
      · rw [if_pos hj0] at hf
        rw [hf]
        have hany : db.any (fun r => r.id = r0.id ∧ r.job = some j) = true :=
          List.any_eq_true.mpr ⟨r0, hr0, by simp [hj0]⟩
        show some "" = some "" ↔ updateFlag db (.clearBatch j) acc r0.id = true
        rw [updateFlag]
        simp only [hany, if_true]
      · rw [if_neg hj0] at hf
        rw [hf]
        have hany : db.any (fun r => r.id = r0.id ∧ r.job = some j) = false := by
          rw [List.any_eq_false]
          intro x hx hpx
          have hx' : x.id = r0.id ∧ x.job = some j := by simpa using hpx
          have := List.inj_on_of_nodup_map hnodup hx hr0 hx'.1
          exact hj0 (this ▸ hx'.2)
        show r0.job = some "" ↔ updateFlag db (.clearBatch j) acc r0.id = true
        rw [updateFlag]
        simp only [hany, Bool.false_eq_true, if_false]
        exact hinv r0 hr0

/-- Witness for C4 (amended): the single row built by `generate` on one
entry starts `NOT_STARTED` with no job. -/
theorem claim_C4_amended_witness :
    ({ id := 1, path := "p", records := 0, state := NOT_STARTED, job := none,
        started := none, finished := none } : FileRow).state = NOT_STARTED ∧
    ({ id := 1, path := "p", records := 0, state := NOT_STARTED, job := none,
        started := none, finished := none } : FileRow).job = none :=
  claim_C4_amended.1 [("p", 0)]
    { id := 1, path := "p", records := 0, state := NOT_STARTED, job := none,
      started := none, finished := none } (by decide)

/-- C10: rows freshly inserted by `generate` have a `NULL` (`none`) job,
while `clear_batch` writes the empty string into the job column of every
row it resets; `complete_batch ""` therefore marks DONE exactly the rows
whose job column holds the empty string (never-leased rows are
untouched); and over any operation sequence without empty-string leases,
a row's job column holds the empty string precisely when some
`clear_batch` reset it and no later `get_next_batch` leased it again. -/
theorem claim_C10 :
    (∀ (entries : List (String × Nat)) (r : FileRow), r ∈ generate entries →
      r.job = none) ∧
    (∀ (db : List FileRow) (job_id : String) (k : Nat) (r r' : FileRow),
      db[k]? = some r → (clear_batch db job_id)[k]? = some r' →
      (r.job = some job_id → r' = { r with state := NOT_STARTED, job := some "" }) ∧
      (r.job ≠ some job_id → r' = r)) ∧
    (∀ (db : List FileRow) (k : Nat) (r r' : FileRow),
      db[k]? = some r → (complete_batch db "")[k]? = some r' →
      (r.job = some "" → r' = { r with state := DONE }) ∧
      (r.job ≠ some "" → r' = r)) ∧
    (∀ (entries : List (String × Nat)) (ops : List DbOp),
      noEmptyLease ops = true →
      ∀ r ∈ applyOps (generate entries) ops,
        (r.job = some "" ↔ resetFlags (generate entries) (fun _ => false) ops r.id = true)) := by
  refine ⟨?_, ?_, ?_, ?_⟩
  · intro entries r hr
    obtain ⟨e, -, he⟩ := List.mem_map.mp hr
    rw [← he]
  · intro db job_id k r r' h1 h2
    have h2' : ((db.map (fun r =>
        if r.job = some job_id then { r with state := NOT_STARTED, job := some "" } else r))[k]?) =
        some r' := h2
    rw [List.getElem?_map, h1] at h2'
    have hr' := Option.some.inj h2'
    simp only [] at hr'
    constructor
    · intro hj
      rw [if_pos hj] at hr'
      exact hr'.symm
    · intro hj
      rw [if_neg hj] at hr'
      exact hr'.symm
  · intro db k r r' h1 h2
    have h2' : ((db.map (fun r =>
        if r.job = some "" then { r with state := DONE } else r))[k]?) = some r' := h2
    rw [List.getElem?_map, h1] at h2'
    have hr' := Option.some.inj h2'
    simp only [] at hr'
    constructor
    · intro hj
      rw [if_pos hj] at hr'
      exact hr'.symm
    · intro hj
      rw [if_neg hj] at hr'
      exact hr'.symm
  · intro entries ops hne r hr
    refine resetFlags_spec ops (generate entries) (fun _ => false)
      (generate_ids_nodup entries) hne ?_ r hr
    intro r0 hr0
    obtain ⟨e, -, he⟩ := List.mem_map.mp hr0
    rw [← he]
    simp

/-- Witness for C10: on a two-row store, lease both rows to job "A",
clear the job, then run `complete_batch ""`: row 1 ends with its job
column holding the empty string, exactly as the reset bookkeeping
predicts. -/
theorem claim_C10_witness :
    (({ id := 1, path := "p1", records := 0, state := DONE, job := some "",
        started := none, finished := none } : FileRow).job = some "" ↔
      resetFlags (generate [("p1", 0), ("p2", 0)]) (fun _ => false)
        [.nextBatch "A" 2, .clearBatch "A", .completeBatch ""] 1 = true) :=
  claim_C10.2.2.2 [("p1", 0), ("p2", 0)]
    [.nextBatch "A" 2, .clearBatch "A", .completeBatch ""] (by decide)
    { id := 1, path := "p1", records := 0, state := DONE, job := some "",
      started := none, finished := none } (by decide)

/-- C1 (counterexample): on the 66-byte offset table that stores the
three 22-byte pairs (0,100), (100,250), (250,400) — the layout the claim
describes — lookup of record index 1 returns (100, 100), not the
(100, 250) the claim requires, because the reader seeks to `11·i`
rather than `22·i`. -/
theorem claim_C1_counterexample :
    get_offset table66 1 = some (100, 100) ∧
      get_offset table66 1 ≠ some (100, 250) := by
  refine ⟨?_, ?_⟩ <;> decide

/-! ### K-way merger lemmas -/

theorem entLe_trans {a b c : List Char × List Char × Nat}
    (h1 : entLe a b) (h2 : entLe b c) : entLe a c := by
  rcases h1 with h1 | ⟨e1, h1⟩
  · rcases h2 with h2 | ⟨e2, h2⟩
    · exact Or.inl (h1.trans h2)
    · exact Or.inl (e2 ▸ h1)
  · rcases h2 with h2 | ⟨e2, h2⟩
    · exact Or.inl (e1 ▸ h2)
    · refine Or.inr ⟨e1.trans e2, ?_⟩
      rcases h1 with h1 | ⟨f1, h1⟩
      · rcases h2 with h2 | ⟨f2, h2⟩
        · exact Or.inl (h1.trans h2)
        · exact Or.inl (f2 ▸ h1)
      · rcases h2 with h2 | ⟨f2, h2⟩
        · exact Or.inl (f1 ▸ h2)
        · exact Or.inr ⟨f1.trans f2, h1.trans h2⟩

theorem entLe_key {a b : List Char × List Char × Nat} (h : entLe a b) : a.1 ≤ b.1 := by
  rcases h with h | ⟨e, -⟩
  · exact le_of_lt h
  · exact le_of_eq e

theorem entryCmp_none_iff {a b : List Char × List Char × Nat} :
    entryCmp a b = none ↔ a.1 = b.1 ∧ a.2.1 = b.2.1 ∧ a.2.2 ≠ b.2.2 := by
  rw [entryCmp]
  by_cases h1 : a.1 = b.1
  · rw [if_neg (by simp [h1])]
    by_cases h2 : a.2.1 = b.2.1
    · rw [if_neg (by simp [h2])]
      by_cases h3 : a.2.2 = b.2.2
      · rw [if_pos h3]
        simp [h1, h2, h3]
      · rw [if_neg h3]
        simp [h1, h2, h3]
    · rw [if_pos h2]
      simp [h2]
  · rw [if_pos h1]
    simp [h1]

theorem entryCmp_true {a b : List Char × List Char × Nat}
    (h : entryCmp a b = some true) : entLe a b := by
  rw [entryCmp] at h
  by_cases h1 : a.1 = b.1
  · rw [if_neg (by simp [h1])] at h
    by_cases h2 : a.2.1 = b.2.1
    · rw [if_neg (by simp [h2])] at h
      by_cases h3 : a.2.2 = b.2.2
      · rw [if_pos h3] at h
        simp at h
      · rw [if_neg h3] at h
        simp at h
    · rw [if_pos h2] at h
      have := Option.some.inj h
      exact Or.inr ⟨h1, Or.inl (of_decide_eq_true this)⟩
  · rw [if_pos h1] at h
    have := Option.some.inj h
    exact Or.inl (of_decide_eq_true this)

theorem entryCmp_false {a b : List Char × List Char × Nat}
    (h : entryCmp a b = some false) : entLe b a := by
  rw [entryCmp] at h
  by_cases h1 : a.1 = b.1
  · rw [if_neg (by simp [h1])] at h
    by_cases h2 : a.2.1 = b.2.1
    · rw [if_neg (by simp [h2])] at h
      by_cases h3 : a.2.2 = b.2.2
      · rw [if_pos h3] at h
        exact Or.inr ⟨h1.symm, Or.inr ⟨h2.symm, h3 ▸ le_rfl⟩⟩
      · rw [if_neg h3] at h
        exact absurd h (by simp)
    · rw [if_pos h2] at h
      have hnlt := of_decide_eq_false (Option.some.inj h)
      rcases lt_or_gt_of_ne h2 with hc | hc
      · exact absurd hc hnlt
      · exact Or.inr ⟨h1.symm, Or.inl hc⟩
  · rw [if_pos h1] at h
    have hnlt := of_decide_eq_false (Option.some.inj h)
    rcases lt_or_gt_of_ne h1 with hc | hc
    · exact absurd hc hnlt
    · exact Or.inl hc

theorem insertEntry_defined (e : List Char × List Char × Nat) :
    ∀ (h : List (List Char × List Char × Nat)),
      (∀ x ∈ h, entryCmp e x ≠ none) → ∃ h', insertEntry e h = some h' := by
  intro h
  induction h with
  | nil => exact fun _ => ⟨[e], rfl⟩
  | cons x xs ih =>
    intro hdef
    rw [insertEntry]
    rcases hc : entryCmp e x with _ | b
    · exact absurd hc (hdef x (by simp))
    · cases b with
      | true => exact ⟨e :: x :: xs, rfl⟩
      | false =>
        obtain ⟨h', hh'⟩ := ih (fun y hy => hdef y (by simp [hy]))
        exact ⟨x :: h', by rw [hh']; rfl⟩

theorem insertEntry_length (e : List Char × List Char × Nat) :
    ∀ (h h' : List (List Char × List Char × Nat)),
      insertEntry e h = some h' → h'.length = h.length + 1 := by
  intro h
  induction h with
  | nil =>
    intro h' hh
    rw [insertEntry] at hh
    rw [← Option.some.inj hh]
    rfl
  | cons x xs ih =>
    intro h' hh
    rw [insertEntry] at hh
    rcases hc : entryCmp e x with _ | b
    · rw [hc] at hh; exact absurd hh (by simp)
    · cases b with
      | true =>
        rw [hc] at hh
        rw [← Option.some.inj hh]
        rfl
      | false =>
        rw [hc] at hh
        rcases hrec : insertEntry e xs with _ | h''
        · rw [hrec] at hh; exact absurd hh (by simp)
        · rw [hrec] at hh
          have := Option.some.inj hh
          rw [← this, List.length_cons, ih h'' hrec]
          rfl

theorem insertEntry_perm (e : List Char × List Char × Nat) :
    ∀ (h h' : List (List Char × List Char × Nat)),
      insertEntry e h = some h' → h'.Perm (e :: h) := by
  intro h
  induction h with
  | nil =>
    intro h' hh
    rw [insertEntry] at hh
    rw [← Option.some.inj hh]
  | cons x xs ih =>
    intro h' hh
    rw [insertEntry] at hh
    rcases hc : entryCmp e x with _ | b
    · rw [hc] at hh; exact absurd hh (by simp)
    · cases b with
      | true =>
        rw [hc] at hh
        rw [← Option.some.inj hh]
      | false =>
        rw [hc] at hh
        rcases hrec : insertEntry e xs with _ | h''
        · rw [hrec] at hh; exact absurd hh (by simp)
        · rw [hrec] at hh
          rw [← Option.some.inj hh]
          exact ((ih h'' hrec).cons x).trans (List.Perm.swap e x xs)

theorem insertEntry_sorted (e : List Char × List Char × Nat) :
    ∀ (h h' : List (List Char × List Char × Nat)),
      h.Pairwise entLe → insertEntry e h = some h' → h'.Pairwise entLe := by
  intro h
  induction h with
  | nil =>
    intro h' _ hh
    rw [insertEntry] at hh
    rw [← Option.some.inj hh]
    exact List.pairwise_singleton _ _
  | cons x xs ih =>
    intro h' hsort hh
    obtain ⟨hx, hxs⟩ := List.pairwise_cons.mp hsort
    rw [insertEntry] at hh
    rcases hc : entryCmp e x with _ | b
    · rw [hc] at hh; exact absurd hh (by simp)
    · cases b with
      | true =>
        rw [hc] at hh
        rw [← Option.some.inj hh]
        refine List.pairwise_cons.mpr ⟨?_, hsort⟩
        intro y hy
        rcases List.mem_cons.mp hy with hy | hy
        · exact hy ▸ entryCmp_true hc
        · exact entLe_trans (entryCmp_true hc) (hx y hy)
      | false =>
        rw [hc] at hh
        rcases hrec : insertEntry e xs with _ | h''
        · rw [hrec] at hh; exact absurd hh (by simp)
        · rw [hrec] at hh
          rw [← Option.some.inj hh]
          refine List.pairwise_cons.mpr ⟨?_, ih h'' hxs hrec⟩
          intro y hy
          rcases List.mem_cons.mp ((insertEntry_perm e xs h'' hrec).mem_iff.mp hy) with hy2 | hy2
          · exact hy2 ▸ entryCmp_false hc
          · exact hx y hy2

theorem getD_eq_of_getElem? {α : Type} :
    ∀ (l : List α) (i : Nat) (x d : α), l[i]? = some x → l.getD i d = x := by
  intro l
  induction l with
  | nil => intro i x d h; simp at h
  | cons a as ih =>
    intro i x d h
    cases i with
    | zero => simpa using h
    | succ i => exact ih i x d (by simpa using h)

theorem getD_set_self {α : Type} :
    ∀ (l : List α) (i : Nat) (a d : α), i < l.length → (l.set i a).getD i d = a := by
  intro l
  induction l with
  | nil => intro i a d h; simp at h
  | cons x xs ih =>
    intro i a d h
    cases i with
    | zero => rfl
    | succ i => exact ih i a d (by simpa using h)

theorem getD_set_ne {α : Type} :
    ∀ (l : List α) (i j : Nat) (a d : α), i ≠ j → (l.set i a).getD j d = l.getD j d := by
  intro l
  induction l with
  | nil => intro i j a d _; rfl
  | cons x xs ih =>
    intro i j a d hij
    cases i with
    | zero =>
      cases j with
      | zero => exact absurd rfl hij
      | succ j => rfl
    | succ i =>
      cases j with
      | zero => rfl
      | succ j => exact ih i j a d (by omega)

theorem sumLens_set :
    ∀ (files : List (List (List Char))) (i : Nat) (old nw : List (List Char)),
      files[i]? = some old →
      ((files.set i nw).map List.length).sum + old.length =
        (files.map List.length).sum + nw.length := by
  intro files
  induction files with
  | nil => intro i old nw h; simp at h
  | cons f fs ih =>
    intro i old nw h
    cases i with
    | zero =>
      have hf : f = old := by simpa using h
      subst hf
      simp [List.set]
      omega
    | succ i =>
      have h' : fs[i]? = some old := by simpa using h
      have := ih i old nw h'
      simp only [List.set, List.map_cons, List.sum_cons]
      omega

theorem msum_set :
    ∀ (files : List (List (List Char))) (i : Nat) (old nw : List (List Char)),
      files[i]? = some old →
      ((files.set i nw).map (fun f => Multiset.ofList f)).sum + Multiset.ofList old =
        (files.map (fun f => Multiset.ofList f)).sum + Multiset.ofList nw := by
  intro files
  induction files with
  | nil => intro i old nw h; simp at h
  | cons f fs ih =>
    intro i old nw h
    cases i with
    | zero =>
      have hf : f = old := by simpa using h
      subst hf
      simp only [List.set, List.map_cons, List.sum_cons]
      abel
    | succ i =>
      have h' : fs[i]? = some old := by simpa using h
      have hrec := ih i old nw h'
      simp only [List.set, List.map_cons, List.sum_cons]
      rw [add_assoc, add_assoc, hrec]

theorem mergeLoopF_cons (fuel : Nat) (e : List Char × List Char × Nat)
    (rest : List (List Char × List Char × Nat)) (files : List (List (List Char))) :
    mergeLoopF (fuel + 1) (e :: rest) files =
      match files[e.2.2]? with
      | none => none
      | some [] =>
        (match mergeLoopF fuel rest files with
          | none => none
          | some out => some (e.2.1 :: out))
      | some (l' :: ls) =>
        (match insertEntry (pyKey l', l', e.2.2) rest with
          | none => none
          | some h' =>
            match mergeLoopF fuel h' (files.set e.2.2 ls) with
            | none => none
            | some out => some (e.2.1 :: out)) := rfl

/-- The k-way merge loop is totally correct on well-formed states: with
enough fuel, a sorted heap holding one entry per live file (keys
matching `line.split(",")[0]`, pending lines of each file dominating its
heap entry, files key-sorted, and no line shared between two distinct
files) merges to exactly the remaining lines, key-sorted. -/
theorem mergeLoopF_spec :
    ∀ (fuel : Nat) (heap : List (List Char × List Char × Nat))
      (files : List (List (List Char))),
      heap.length + (files.map List.length).sum < fuel →
      heap.Pairwise entLe →
      (heap.map (fun e => e.2.2)).Nodup →
      (∀ e ∈ heap, e.2.2 < files.length) →
      (∀ e ∈ heap, e.1 = pyKey e.2.1) →
      (∀ e ∈ heap, ∀ x ∈ files.getD e.2.2 [], e.1 ≤ pyKey x) →
      (∀ i, i < files.length → (∀ e ∈ heap, e.2.2 ≠ i) → files.getD i [] = []) →
      (∀ j, (files.getD j []).Pairwise keyLe) →
      (∀ e1 ∈ heap, ∀ e2 ∈ heap, e1.2.2 ≠ e2.2.2 → e1.2.1 ≠ e2.2.1) →
      (∀ e ∈ heap, ∀ j, j ≠ e.2.2 → e.2.1 ∉ files.getD j []) →
      (∀ i j, i ≠ j → ∀ x ∈ files.getD i [], x ∉ files.getD j []) →
      ∃ out, mergeLoopF fuel heap files = some out ∧
        out.length = heap.length + (files.map List.length).sum ∧
        Multiset.ofList out =
          Multiset.ofList (heap.map (fun e => e.2.1)) +
            (files.map (fun f => Multiset.ofList f)).sum ∧
        out.Pairwise keyLe ∧
        (∀ b, (∀ e ∈ heap, b ≤ e.1) → ∀ x ∈ out, b ≤ pyKey x) := by
  intro fuel
  induction fuel with
  | zero =>
    intro heap files hm
    omega
  | succ fuel ih =>
    intro heap files hm W1 W2 W3 W4 W5 W6 W7 W8 W9 W10
    cases heap with
    | nil =>
      have hempty : ∀ f ∈ files, f = [] := by
        intro f hf
        obtain ⟨i, hi, hgi⟩ := List.getElem_of_mem hf
        have h0 := W6 i hi (by intro e he; exact absurd he (List.not_mem_nil e))
        rw [getD_eq_of_getElem? files i files[i] [] (List.getElem?_eq_getElem hi)] at h0
        rw [← hgi]
        exact h0
      have hlen0 : (files.map List.length).sum = 0 := by
        apply List.sum_eq_zero
        intro x hx
        obtain ⟨f, hf, hfx⟩ := List.mem_map.mp hx
        rw [← hfx, hempty f hf]
        rfl
      have hms0 : (files.map (fun f => Multiset.ofList f)).sum = 0 := by
        apply List.sum_eq_zero
        intro x hx
        obtain ⟨f, hf, hfx⟩ := List.mem_map.mp hx
        rw [← hfx, hempty f hf]
        rfl
      refine ⟨[], rfl, by simp [hlen0], by simp [hms0], List.Pairwise.nil, ?_⟩
      intro b _ x hx
      exact absurd hx (List.not_mem_nil x)
    | cons e rest =>
      obtain ⟨k, l, i⟩ := e
      have hi : i < files.length := W3 (k, l, i) (by simp)
      have hfiq : files[i]? = some files[i] := List.getElem?_eq_getElem hi
      have hgd : files.getD i [] = files[i] :=
        getD_eq_of_getElem? files i files[i] [] hfiq
      obtain ⟨hW1h, hW1t⟩ := List.pairwise_cons.mp W1
      have hW2t : (rest.map (fun e => e.2.2)).Nodup := (List.nodup_cons.mp W2).2
      have hiNotRest : i ∉ rest.map (fun e => e.2.2) := (List.nodup_cons.mp W2).1
      have hkey : k = pyKey l := W4 (k, l, i) (by simp)
      rcases hfm : files[i] with _ | ⟨l', ls⟩
      · -- EOF on file i: drop the file, recurse on the remaining heap
        rw [hfm] at hfiq hgd
        obtain ⟨out', hout', hlen', hms', hsort', hbnd'⟩ :=
          ih rest files (by simp at hm ⊢; omega) hW1t hW2t
            (fun e he => W3 e (by simp [he]))
            (fun e he => W4 e (by simp [he]))
            (fun e he => W5 e (by simp [he]))
            (by
              intro j hj hne
              by_cases hji : j = i
              · rw [hji, hgd]
              · exact W6 j hj (by
                  intro e he
                  rcases List.mem_cons.mp he with he | he
                  · rw [he]; exact fun hc => hji (hc ▸ rfl)
                  · exact hne e he))
            W7
            (fun e1 he1 e2 he2 => W8 e1 (by simp [he1]) e2 (by simp [he2]))
            (fun e he => W9 e (by simp [he]))
            W10
        refine ⟨l :: out', ?_, ?_, ?_, ?_, ?_⟩
        · rw [mergeLoopF_cons]
          show (match files[i]? with
            | none => none
            | some [] =>
              (match mergeLoopF fuel rest files with
                | none => none
                | some out => some (l :: out))
            | some (l' :: ls) =>
              (match insertEntry (pyKey l', l', i) rest with
                | none => none
                | some h' =>
                  match mergeLoopF fuel h' (files.set i ls) with
                  | none => none
                  | some out => some (l :: out))) = some (l :: out')
          rw [hfiq]
          show (match mergeLoopF fuel rest files with
            | none => none
            | some out => some (l :: out)) = some (l :: out')
          rw [hout']
        · simp only [List.length_cons]
          omega
        · show (l ::ₘ Multiset.ofList out') = _
          rw [hms']
          simp only [List.map_cons]
          show _ = (l ::ₘ Multiset.ofList (rest.map (fun e => e.2.1))) + _
          rw [Multiset.cons_add]
        · refine List.pairwise_cons.mpr ⟨?_, hsort'⟩
          intro y hy
          show pyKey l ≤ pyKey y
          rw [← hkey]
          exact hbnd' k (fun e he => entLe_key (hW1h e he)) y hy
        · intro b hb x hx
          rcases List.mem_cons.mp hx with hx | hx
          · rw [hx, ← hkey]
            exact hb (k, l, i) (by simp)
          · exact hbnd' b (fun e he => hb e (by simp [he])) x hx
      · -- file i has a next line l': push it and recurse
        rw [hfm] at hfiq hgd
        have hinsDef : ∀ x ∈ rest, entryCmp (pyKey l', l', i) x ≠ none := by
          intro x hx hc
          obtain ⟨-, hline, hidx⟩ := entryCmp_none_iff.mp hc
          have : x.2.1 ∉ files.getD i [] :=
            W9 x (by simp [hx]) i (by
              intro hc2
              exact hidx (by rw [hc2]))
          rw [hgd, ← hline] at this
          exact this (by simp)
        obtain ⟨h', hins⟩ := insertEntry_defined _ rest hinsDef
        have hperm := insertEntry_perm _ rest h' hins
        have hmemh' : ∀ x, x ∈ h' ↔ x = (pyKey l', l', i) ∨ x ∈ rest := by
          intro x
          rw [hperm.mem_iff, List.mem_cons]
        have hlsSub : ∀ x ∈ ls, x ∈ files.getD i [] := by
          intro x hx
          rw [hgd]
          exact List.mem_cons_of_mem l' hx
        have hl'mem : l' ∈ files.getD i [] := by
          rw [hgd]
          exact List.mem_cons_self l' ls
        have hW7i := W7 i
        rw [hgd] at hW7i
        obtain ⟨hW7h, hW7t⟩ := List.pairwise_cons.mp hW7i
        obtain ⟨out', hout', hlen', hms', hsort', hbnd'⟩ :=
          ih h' (files.set i ls)
            (by
              have h1 := insertEntry_length _ rest h' hins
              have h2 := sumLens_set files i (l' :: ls) ls hfiq
              simp only [List.length_cons] at h2 hm ⊢
              omega)
            (insertEntry_sorted _ rest h' hW1t hins)
            (by
              have : (h'.map (fun e => e.2.2)).Perm
                  (((pyKey l', l', i) :: rest).map (fun e => e.2.2)) := hperm.map _
              rw [this.nodup_iff]
              simp only [List.map_cons]
              exact List.nodup_cons.mpr ⟨hiNotRest, hW2t⟩)
            (by
              intro e he
              rw [List.length_set]
              rcases (hmemh' e).mp he with he | he
              · rw [he]; exact hi
              · exact W3 e (by simp [he]))
            (by
              intro e he
              rcases (hmemh' e).mp he with he | he
              · rw [he]
              · exact W4 e (by simp [he]))
            (by
              intro e he x hx
              rcases (hmemh' e).mp he with he | he
              · rw [he] at hx ⊢
                rw [getD_set_self files i ls [] hi] at hx
                exact hW7h x hx
              · have hne : e.2.2 ≠ i := by
                  intro hc
                  exact hiNotRest (hc ▸ List.mem_map_of_mem (fun e => e.2.2) he)
                rw [getD_set_ne files i e.2.2 ls [] (fun hc => hne hc.symm)] at hx
                exact W5 e (by simp [he]) x hx)
            (by
              intro j hj hne
              have hji : j ≠ i := by
                intro hc
                exact hne (pyKey l', l', i) ((hmemh' _).mpr (Or.inl rfl)) (by rw [hc])
              rw [List.length_set] at hj
              rw [getD_set_ne files i j ls [] (fun hc => hji hc.symm)]
              exact W6 j hj (by
                intro e he
                rcases List.mem_cons.mp he with he | he
                · rw [he]
                  intro hc
                  exact hne (pyKey l', l', i) ((hmemh' _).mpr (Or.inl rfl)) hc
                · exact fun hc => hne e ((hmemh' _).mpr (Or.inr he)) hc))
            (by
              intro j
              by_cases hji : j = i
              · rw [hji, getD_set_self files i ls [] hi]
                exact hW7t
              · rw [getD_set_ne files i j ls [] (fun hc => hji hc.symm)]
                exact W7 j)
            (by
              intro e1 he1 e2 he2 hne
              rcases (hmemh' e1).mp he1 with he1 | he1 <;>
                rcases (hmemh' e2).mp he2 with he2 | he2
              · rw [he1, he2] at hne
                exact absurd rfl hne
              · rw [he1] at hne ⊢
                intro hc
                have : e2.2.1 ∉ files.getD i [] :=
                  W9 e2 (by simp [he2]) i (by
                    intro hc2
                    exact hne (by rw [hc2]))
                exact this (hc ▸ hl'mem)
              · rw [he2] at hne ⊢
                intro hc
                have : e1.2.1 ∉ files.getD i [] :=
                  W9 e1 (by simp [he1]) i (by
                    intro hc2
                    exact hne (by rw [hc2]))
                exact this (hc.symm ▸ hl'mem)
              · exact W8 e1 (by simp [he1]) e2 (by simp [he2]) hne)
            (by
              intro e he j hj
              rcases (hmemh' e).mp he with he | he
              · rw [he] at hj ⊢
                rw [getD_set_ne files i j ls [] (fun hc => hj hc.symm)]
                exact W10 i j (fun hc => hj hc.symm) l' hl'mem
              · by_cases hji : j = i
                · rw [hji, getD_set_self files i ls [] hi]
                  intro hc
                  have hne : i ≠ e.2.2 := by rw [← hji]; exact hj
                  exact W9 e (by simp [he]) i hne (hlsSub _ hc)
                · rw [getD_set_ne files i j ls [] (fun hc => hji hc.symm)]
                  exact W9 e (by simp [he]) j hj)
            (by
              intro i1 j1 hne x hx
              by_cases h1 : i1 = i <;> by_cases h2 : j1 = i
              · rw [h1, h2] at hne
                exact absurd rfl hne
              · rw [h1, getD_set_self files i ls [] hi] at hx
                rw [getD_set_ne files i j1 ls [] (fun hc => h2 hc.symm)]
                exact W10 i j1 (h1 ▸ hne) x (hlsSub x hx)
              · rw [h2, getD_set_self files i ls [] hi]
                rw [getD_set_ne files i i1 ls [] (fun hc => h1 hc.symm)] at hx
                intro hc
                exact W10 i1 i (h2 ▸ hne) x hx (hlsSub x hc)
              · rw [getD_set_ne files i i1 ls [] (fun hc => h1 hc.symm)] at hx
                rw [getD_set_ne files i j1 ls [] (fun hc => h2 hc.symm)]
                exact W10 i1 j1 hne x hx)
        have hkb : ∀ e ∈ h', k ≤ e.1 := by
          intro e he
          rcases (hmemh' e).mp he with he | he
          · rw [he]
            exact W5 (k, l, i) (by simp) l' hl'mem
          · exact entLe_key (hW1h e he)
        refine ⟨l :: out', ?_, ?_, ?_, ?_, ?_⟩
        · rw [mergeLoopF_cons]
          show (match files[i]? with
            | none => none
            | some [] =>
              (match mergeLoopF fuel rest files with
                | none => none
                | some out => some (l :: out))
            | some (l' :: ls) =>
              (match insertEntry (pyKey l', l', i) rest with
                | none => none
                | some h' =>
                  match mergeLoopF fuel h' (files.set i ls) with
                  | none => none
                  | some out => some (l :: out))) = some (l :: out')
          rw [hfiq]
          show (match insertEntry (pyKey l', l', i) rest with
            | none => none
            | some h' =>
              match mergeLoopF fuel h' (files.set i ls) with
              | none => none
              | some out => some (l :: out)) = some (l :: out')
          rw [hins]
          show (match mergeLoopF fuel h' (files.set i ls) with
            | none => none
            | some out => some (l :: out)) = some (l :: out')
          rw [hout']
        · have h1 := insertEntry_length _ rest h' hins
          have h2 := sumLens_set files i (l' :: ls) ls hfiq
          simp only [List.length_cons] at h2 ⊢
          omega
        · have hpm : Multiset.ofList (h'.map (fun e => e.2.1)) =
              l' ::ₘ Multiset.ofList (rest.map (fun e => e.2.1)) := by
            have hp : (h'.map (fun e => e.2.1)).Perm
                (((pyKey l', l', i) :: rest).map (fun e => e.2.1)) := hperm.map _
            rw [Multiset.coe_eq_coe.mpr hp]
            rfl
          have hcancel : ((files.set i ls).map (fun f => Multiset.ofList f)).sum + {l'} =
              (files.map (fun f => Multiset.ofList f)).sum := by
            have h2 := msum_set files i (l' :: ls) ls hfiq
            have h3 : Multiset.ofList (l' :: ls) =
                {l'} + Multiset.ofList ls := by
              rw [Multiset.singleton_add]
              exact (Multiset.cons_coe l' ls).symm
            rw [h3] at h2
            have h4 := h2
            rw [← add_assoc] at h4
            exact add_right_cancel h4
          show (l ::ₘ Multiset.ofList out') = _
          rw [hms', hpm]
          simp only [List.map_cons]
          show _ = (l ::ₘ Multiset.ofList (rest.map (fun e => e.2.1))) + _
          rw [← hcancel]
          simp only [← Multiset.singleton_add]
          abel
        · refine List.pairwise_cons.mpr ⟨?_, hsort'⟩
          intro y hy
          show pyKey l ≤ pyKey y
          rw [← hkey]
          exact hbnd' k hkb y hy
        · intro b hb x hx
          rcases List.mem_cons.mp hx with hx | hx
          · rw [hx, ← hkey]
            exact hb (k, l, i) (by simp)
          · refine hbnd' b ?_ x hx
            intro e he
            rcases (hmemh' e).mp he with he | he
            · rw [he]
              exact le_trans (hb (k, l, i) (by simp))
                (W5 (k, l, i) (by simp) l' hl'mem)
            · exact hb e (by simp [he])


/-! ### Heap-fill lemmas and the merger claims -/

theorem fillAux_cons (i : Nat) (l : List Char) (ls : List (List Char))
    (rest : List (Nat × List (List Char))) (heap : List (List Char × List Char × Nat)) :
    fillAux ((i, l :: ls) :: rest) heap =
      match insertEntry (pyKey l, l, i) heap with
      | none => none
      | some h0 => fillAux rest h0 := rfl

theorem enumFrom_length : ∀ (l : List (List (List Char))) (i0 : Nat),
    (enumFrom i0 l).length = l.length := by
  intro l
  induction l with
  | nil => intro i0; rfl
  | cons f fs ih =>
    intro i0
    show (enumFrom (i0 + 1) fs).length + 1 = fs.length + 1
    rw [ih (i0 + 1)]

theorem enumFrom_getElem? : ∀ (l : List (List (List Char))) (i0 k : Nat),
    (enumFrom i0 l)[k]? = (l[k]?).map (fun f => (i0 + k, f)) := by
  intro l
  induction l with
  | nil => intro i0 k; rfl
  | cons f fs ih =>
    intro i0 k
    rw [enumFrom]
    cases k with
    | zero => simp
    | succ k =>
      rw [List.getElem?_cons_succ, List.getElem?_cons_succ, ih (i0 + 1) k]
      cases fs[k]? with
      | none => rfl
      | some x =>
        show some (i0 + 1 + k, x) = some (i0 + (k + 1), x)
        rw [Nat.add_assoc, Nat.add_comm 1 k]

theorem mem_enumFrom_zero (l : List (List (List Char))) (p : Nat × List (List Char)) :
    p ∈ enumFrom 0 l ↔ l[p.1]? = some p.2 := by
  rw [List.mem_iff_getElem?]
  constructor
  · rintro ⟨k, hk⟩
    rw [enumFrom_getElem? l 0 k] at hk
    cases hq : l[k]? with
    | none => rw [hq] at hk; exact absurd hk (by simp)
    | some f =>
      rw [hq] at hk
      have hkp := Option.some.inj hk
      rw [← hkp]
      show l[0 + k]? = some f
      rw [Nat.zero_add]
      exact hq
  · intro h
    refine ⟨p.1, ?_⟩
    rw [enumFrom_getElem? l 0 p.1, h]
    show some (0 + p.1, p.2) = some p
    rw [Nat.zero_add]

theorem enumFrom_map_fst : ∀ (l : List (List (List Char))) (i0 : Nat),
    (enumFrom i0 l).map Prod.fst = List.range' i0 l.length := by
  intro l
  induction l with
  | nil => intro i0; rfl
  | cons f fs ih =>
    intro i0
    show i0 :: (enumFrom (i0 + 1) fs).map Prod.fst = List.range' i0 (fs.length + 1)
    rw [ih (i0 + 1)]
    rfl

theorem enumFrom_map_headI : ∀ (l : List (List (List Char))) (i0 : Nat),
    (enumFrom i0 l).map (fun p => p.2.headI) = l.map (fun f => f.headI) := by
  intro l
  induction l with
  | nil => intro i0; rfl
  | cons f fs ih =>
    intro i0
    show f.headI :: (enumFrom (i0 + 1) fs).map (fun p => p.2.headI) =
      f.headI :: fs.map (fun f => f.headI)
    rw [ih (i0 + 1)]

theorem headI_mem_of_ne_nil {f : List (List Char)} (h : f ≠ []) : f.headI ∈ f := by
  cases f with
  | nil => exact absurd rfl h
  | cons a t => exact List.mem_cons_self a t

theorem getD_eq_of_getElem?_none {α : Type} :
    ∀ (l : List α) (i : Nat) (d : α), l[i]? = none → l.getD i d = d := by
  intro l
  induction l with
  | nil => intro i d _; cases i <;> rfl
  | cons a t ih =>
    intro i d h
    cases i with
    | zero => simp at h
    | succ i =>
      rw [List.getD_eq_getElem?_getD, List.getElem?_cons_succ, ← List.getD_eq_getElem?_getD]
      exact ih i d (by simpa using h)

theorem getD_map_drop : ∀ (l : List (List (List Char))) (j : Nat),
    (l.map (fun f => f.drop 1)).getD j [] = (l.getD j []).drop 1 := by
  intro l
  induction l with
  | nil => intro j; rfl
  | cons f fs ih =>
    intro j
    rw [List.map_cons]
    cases j with
    | zero => rfl
    | succ j =>
      rw [List.getD_eq_getElem?_getD, List.getElem?_cons_succ, ← List.getD_eq_getElem?_getD,
        List.getD_eq_getElem?_getD (f :: fs), List.getElem?_cons_succ, ← List.getD_eq_getElem?_getD]
      exact ih j

theorem sumTails : ∀ (inputs : List (List (List Char))),
    (∀ f ∈ inputs, f ≠ []) →
    ((inputs.map (fun f => f.drop 1)).map List.length).sum + inputs.length =
      (inputs.map List.length).sum := by
  intro inputs
  induction inputs with
  | nil => intro _; rfl
  | cons f fs ih =>
    intro hne
    have hf : f ≠ [] := hne f (List.mem_cons_self _ _)
    have ihx := ih (fun g hg => hne g (List.mem_cons_of_mem _ hg))
    cases f with
    | nil => exact absurd rfl hf
    | cons a t =>
      simp only [List.map_cons, List.sum_cons, List.length_cons, List.drop_succ_cons,
        List.drop_zero]
      omega

theorem msum_decomp : ∀ (inputs : List (List (List Char))),
    (∀ f ∈ inputs, f ≠ []) →
    Multiset.ofList (inputs.map (fun f => f.headI)) +
      ((inputs.map (fun f => f.drop 1)).map (fun f => Multiset.ofList f)).sum =
      (inputs.map (fun f => Multiset.ofList f)).sum := by
  intro inputs
  induction inputs with
  | nil => intro _; rfl
  | cons f fs ih =>
    intro hne
    have hf : f ≠ [] := hne f (List.mem_cons_self _ _)
    have ihx := ih (fun g hg => hne g (List.mem_cons_of_mem _ hg))
    cases f with
    | nil => exact absurd rfl hf
    | cons a t =>
      simp only [List.map_cons, List.sum_cons, List.headI_cons, List.drop_succ_cons,
        List.drop_zero]
      rw [← ihx]
      have hca : Multiset.ofList (a :: fs.map (fun f => f.headI)) =
          {a} + Multiset.ofList (fs.map (fun f => f.headI)) := by
        rw [Multiset.singleton_add]
        exact (Multiset.cons_coe _ _).symm
      have hct : Multiset.ofList (a :: t) = {a} + Multiset.ofList t := by
        rw [Multiset.singleton_add]
        exact (Multiset.cons_coe _ _).symm
      rw [hca, hct, add_add_add_comm]

theorem fillAux_spec :
    ∀ (pairs : List (Nat × List (List Char))) (heap : List (List Char × List Char × Nat)),
      (∀ p ∈ pairs, p.2 ≠ []) →
      heap.Pairwise entLe →
      (∀ e ∈ heap, e.1 = pyKey e.2.1) →
      (∀ p ∈ pairs, ∀ e ∈ heap, p.1 ≠ e.2.2 → p.2.headI ≠ e.2.1) →
      (∀ p ∈ pairs, ∀ q ∈ pairs, p.1 ≠ q.1 → p.2.headI ≠ q.2.headI) →
      ∃ h1, fillAux pairs heap = some h1 ∧
        h1.Perm (heap ++ pairs.map (fun p => (pyKey p.2.headI, p.2.headI, p.1))) ∧
        h1.Pairwise entLe ∧ (∀ e ∈ h1, e.1 = pyKey e.2.1) := by
  intro pairs
  induction pairs with
  | nil =>
    intro heap _ hsort hkeys _ _
    refine ⟨heap, rfl, ?_, hsort, hkeys⟩
    rw [List.map_nil, List.append_nil]
  | cons p rest ih =>
    intro heap hne hsort hkeys hcross hdistinct
    obtain ⟨i, f⟩ := p
    cases f with
    | nil => exact absurd rfl (hne (i, []) (List.mem_cons_self _ _))
    | cons l ls =>
      have hins : ∃ h0, insertEntry (pyKey l, l, i) heap = some h0 := by
        apply insertEntry_defined
        intro x hx hnone
        obtain ⟨h1, h2, h3⟩ := entryCmp_none_iff.mp hnone
        exact hcross (i, l :: ls) (List.mem_cons_self _ _) x hx h3 h2
      obtain ⟨h0, hh0⟩ := hins
      have hperm0 := insertEntry_perm _ _ _ hh0
      have hsort0 := insertEntry_sorted _ _ _ hsort hh0
      have hkeys0 : ∀ e ∈ h0, e.1 = pyKey e.2.1 := by
        intro e he
        rcases List.mem_cons.mp (hperm0.mem_iff.mp he) with he2 | he2
        · rw [he2]
        · exact hkeys e he2
      obtain ⟨h1, hfill1, hperm1, hsort1, hkeys1⟩ :=
        ih h0 (fun q hq => hne q (List.mem_cons_of_mem _ hq)) hsort0 hkeys0
          (by
            intro q hq x hx hne2
            rcases List.mem_cons.mp (hperm0.mem_iff.mp hx) with hx2 | hx2
            · rw [hx2] at hne2 ⊢
              exact hdistinct q (List.mem_cons_of_mem _ hq) (i, l :: ls)
                (List.mem_cons_self _ _) hne2
            · exact hcross q (List.mem_cons_of_mem _ hq) x hx2 hne2)
          (fun q hq r hr =>
            hdistinct q (List.mem_cons_of_mem _ hq) r (List.mem_cons_of_mem _ hr))
      refine ⟨h1, ?_, ?_, hsort1, hkeys1⟩
      · rw [fillAux_cons, hh0]
        exact hfill1
      · rw [List.map_cons]
        exact hperm1.trans ((hperm0.append_right _).trans List.perm_middle.symm)

/-- C2 (counterexample): an empty input file crashes the merger during
the heap-fill phase (`read_line` returns `None` and `None.split(",")`
raises), and two files sharing an identical line crash it with a
`TypeError` when `heapq` falls through to comparing the two `File`
objects; in both cases the run raises instead of producing the merged
output the claim promises. -/
theorem claim_C2_counterexample :
    heapSortRun [[]] = none ∧
    heapSortRun [[("a,x").data], [("a,x").data]] = none := by
  decide

/-- C2 (amended): for every directory of input files that are all
nonempty, each sorted ascending by the first comma-delimited field, and
pairwise sharing no identical line, the k-way merger terminates normally
and produces an output whose line count equals the sum of the input line
counts, whose multiset of lines equals the union of the inputs, and
whose sequence of first fields is non-decreasing. -/
theorem claim_C2_amended (inputs : List (List (List Char)))
    (hne : ∀ f ∈ inputs, f ≠ [])
    (hsorted : ∀ f ∈ inputs, f.Pairwise keyLe)
    (hdisj : ∀ i ∈ List.range inputs.length, ∀ j ∈ List.range inputs.length,
      i ≠ j → ∀ x ∈ inputs.getD i [], x ∉ inputs.getD j []) :
    ∃ out, heapSortRun inputs = some out ∧
      out.length = (inputs.map List.length).sum ∧
      Multiset.ofList out = (inputs.map (fun f => Multiset.ofList f)).sum ∧
      out.Pairwise keyLe := by
  have hdisj2 : ∀ (i j : Nat), i ≠ j → ∀ x ∈ inputs.getD i [], x ∉ inputs.getD j [] := by
    intro i j hij x hx
    by_cases hi : i < inputs.length
    · by_cases hj : j < inputs.length
      · exact hdisj i (List.mem_range.mpr hi) j (List.mem_range.mpr hj) hij x hx
      · intro hx2
        rw [getD_eq_of_getElem?_none inputs j [] (List.getElem?_eq_none (by omega))] at hx2
        exact absurd hx2 (List.not_mem_nil x)
    · rw [getD_eq_of_getElem?_none inputs i [] (List.getElem?_eq_none (by omega))] at hx
      exact absurd hx (List.not_mem_nil x)
  have hmemP2 : ∀ p ∈ enumFrom 0 inputs,
      p.2 ∈ inputs ∧ p.1 < inputs.length ∧ inputs.getD p.1 [] = p.2 := by
    intro p hp
    have h := (mem_enumFrom_zero inputs p).mp hp
    obtain ⟨hlt, hval⟩ := List.getElem?_eq_some_iff.mp h
    refine ⟨?_, hlt, getD_eq_of_getElem? inputs p.1 p.2 [] h⟩
    rw [← hval]
    exact List.getElem_mem hlt
  have hheads : ∀ p ∈ enumFrom 0 inputs, ∀ q ∈ enumFrom 0 inputs,
      p.1 ≠ q.1 → p.2.headI ≠ q.2.headI := by
    intro p hp q hq hpq heq
    obtain ⟨hpmem, hplt, hpd⟩ := hmemP2 p hp
    obtain ⟨hqmem, hqlt, hqd⟩ := hmemP2 q hq
    have h1 : p.2.headI ∈ inputs.getD p.1 [] := by
      rw [hpd]
      exact headI_mem_of_ne_nil (hne p.2 hpmem)
    have h2 : q.2.headI ∈ inputs.getD q.1 [] := by
      rw [hqd]
      exact headI_mem_of_ne_nil (hne q.2 hqmem)
    have h3 := hdisj2 p.1 q.1 hpq p.2.headI h1
    rw [heq] at h3
    exact h3 h2
  obtain ⟨hp, hfill, hpermE, hsortH, hkeysH⟩ :=
    fillAux_spec (enumFrom 0 inputs) []
      (fun p hp => hne p.2 (hmemP2 p hp).1)
      List.Pairwise.nil
      (fun e he => absurd he (List.not_mem_nil e))
      (fun p _ e he => absurd he (List.not_mem_nil e))
      hheads
  rw [List.nil_append] at hpermE
  have hmemH : ∀ e ∈ hp, ∃ p ∈ enumFrom 0 inputs,
      e = (pyKey p.2.headI, p.2.headI, p.1) := by
    intro e he
    obtain ⟨p, hpm, hpe⟩ := List.mem_map.mp (hpermE.mem_iff.mp he)
    exact ⟨p, hpm, hpe.symm⟩
  have hrun : heapSortRun inputs =
      mergeLoopF (hp.length + ((inputs.map (fun f => f.drop 1)).map List.length).sum + 1)
        hp (inputs.map (fun f => f.drop 1)) := by
    unfold heapSortRun
    rw [hfill]
  have hW2 : (hp.map (fun e => e.2.2)).Nodup := by
    have hp2 : (hp.map (fun e => e.2.2)).Perm
        (((enumFrom 0 inputs).map (fun p => (pyKey p.2.headI, p.2.headI, p.1))).map
          (fun e => e.2.2)) := hpermE.map _
    have he2 : ((enumFrom 0 inputs).map (fun p => (pyKey p.2.headI, p.2.headI, p.1))).map
        (fun e => e.2.2) = (enumFrom 0 inputs).map Prod.fst := by
      rw [List.map_map]
      rfl
    rw [he2, enumFrom_map_fst] at hp2
    exact hp2.nodup_iff.mpr (List.nodup_range' 0 inputs.length 1 (by omega))
  have hW3 : ∀ e ∈ hp, e.2.2 < (inputs.map (fun f => f.drop 1)).length := by
    intro e he
    obtain ⟨p, hpm, hpe⟩ := hmemH e he
    have h3 : e.2.2 = p.1 := by rw [hpe]
    rw [h3, List.length_map]
    exact (hmemP2 p hpm).2.1
  have hW5 : ∀ e ∈ hp, ∀ x ∈ (inputs.map (fun f => f.drop 1)).getD e.2.2 [],
      e.1 ≤ pyKey x := by
    intro e he x hx
    obtain ⟨p, hpm, hpe⟩ := hmemH e he
    obtain ⟨hpmem, hplt, hpd⟩ := hmemP2 p hpm
    have h1 : e.1 = pyKey p.2.headI := by rw [hpe]
    have h3 : e.2.2 = p.1 := by rw [hpe]
    rw [h3, getD_map_drop, hpd] at hx
    obtain ⟨a, t, hp2⟩ := List.exists_cons_of_ne_nil (hne p.2 hpmem)
    rw [hp2] at hx
    have hxt : x ∈ t := by simpa using hx
    have hps := hsorted p.2 hpmem
    rw [hp2] at hps
    have hax := (List.pairwise_cons.mp hps).1 x hxt
    rw [h1, hp2]
    exact hax
  have hW6 : ∀ i, i < (inputs.map (fun f => f.drop 1)).length →
      (∀ e ∈ hp, e.2.2 ≠ i) → (inputs.map (fun f => f.drop 1)).getD i [] = [] := by
    intro i hi hno
    exfalso
    rw [List.length_map] at hi
    have hq : inputs[i]? = some inputs[i] := List.getElem?_eq_getElem hi
    have hpm : (i, inputs[i]) ∈ enumFrom 0 inputs :=
      (mem_enumFrom_zero inputs (i, inputs[i])).mpr hq
    have hin : (pyKey (inputs[i]).headI, (inputs[i]).headI, i) ∈ hp := by
      apply hpermE.mem_iff.mpr
      exact List.mem_map.mpr ⟨(i, inputs[i]), hpm, rfl⟩
    exact hno _ hin rfl
  have hW7 : ∀ j, ((inputs.map (fun f => f.drop 1)).getD j []).Pairwise keyLe := by
    intro j
    rw [getD_map_drop]
    apply List.Pairwise.sublist (List.drop_sublist 1 _)
    by_cases hj : j < inputs.length
    · have hq : inputs[j]? = some inputs[j] := List.getElem?_eq_getElem hj
      rw [getD_eq_of_getElem? inputs j inputs[j] [] hq]
      exact hsorted _ (List.getElem_mem hj)
    · rw [getD_eq_of_getElem?_none inputs j [] (List.getElem?_eq_none (by omega))]
      exact List.Pairwise.nil
  have hW8 : ∀ e1 ∈ hp, ∀ e2 ∈ hp, e1.2.2 ≠ e2.2.2 → e1.2.1 ≠ e2.2.1 := by
    intro e1 he1 e2 he2 hne12
    obtain ⟨p, hpm, hpe⟩ := hmemH e1 he1
    obtain ⟨q, hqm, hqe⟩ := hmemH e2 he2
    have h1 : e1.2.1 = p.2.headI := by rw [hpe]
    have h2 : e2.2.1 = q.2.headI := by rw [hqe]
    have h3 : e1.2.2 = p.1 := by rw [hpe]
    have h4 : e2.2.2 = q.1 := by rw [hqe]
    rw [h1, h2]
    apply hheads p hpm q hqm
    rw [← h3, ← h4]
    exact hne12
  have hW9 : ∀ e ∈ hp, ∀ j, j ≠ e.2.2 →
      e.2.1 ∉ (inputs.map (fun f => f.drop 1)).getD j [] := by
    intro e he j hj hmem
    obtain ⟨p, hpm, hpe⟩ := hmemH e he
    obtain ⟨hpmem, hplt, hpd⟩ := hmemP2 p hpm
    have h1 : e.2.1 = p.2.headI := by rw [hpe]
    have h3 : e.2.2 = p.1 := by rw [hpe]
    rw [getD_map_drop] at hmem
    have hmem2 : e.2.1 ∈ inputs.getD j [] := List.mem_of_mem_drop hmem
    have hhead : e.2.1 ∈ inputs.getD p.1 [] := by
      rw [h1, hpd]
      exact headI_mem_of_ne_nil (hne p.2 hpmem)
    exact hdisj2 p.1 j (by omega) e.2.1 hhead hmem2
  have hW10 : ∀ i j, i ≠ j → ∀ x ∈ (inputs.map (fun f => f.drop 1)).getD i [],
      x ∉ (inputs.map (fun f => f.drop 1)).getD j [] := by
    intro i j hij x hx hx2
    rw [getD_map_drop] at hx hx2
    exact hdisj2 i j hij x (List.mem_of_mem_drop hx) (List.mem_of_mem_drop hx2)
  obtain ⟨out, hmerge, hlen, hms, hsortOut, _⟩ :=
    mergeLoopF_spec
      (hp.length + ((inputs.map (fun f => f.drop 1)).map List.length).sum + 1)
      hp (inputs.map (fun f => f.drop 1))
      (by omega) hsortH hW2 hW3 hkeysH hW5 hW6 hW7 hW8 hW9 hW10
  refine ⟨out, ?_, ?_, ?_, hsortOut⟩
  · rw [hrun]
    exact hmerge
  · rw [hlen]
    have hlenH : hp.length = inputs.length := by
      rw [hpermE.length_eq, List.length_map, enumFrom_length]
    have hst := sumTails inputs hne
    omega
  · rw [hms]
    have hmapperm : (hp.map (fun e => e.2.1)).Perm (inputs.map (fun f => f.headI)) := by
      refine (hpermE.map _).trans ?_
      rw [List.map_map]
      have hfe : ((fun e : List Char × List Char × Nat => e.2.1) ∘
          (fun p : Nat × List (List Char) => (pyKey p.2.headI, p.2.headI, p.1))) =
          (fun p : Nat × List (List Char) => p.2.headI) := rfl
      rw [hfe, enumFrom_map_headI]
    rw [Multiset.coe_eq_coe.mpr hmapperm]
    exact msum_decomp inputs hne

/-- Witness for C2 (amended) on a concrete directory of two sorted
files with three lines in total. -/
theorem claim_C2_amended_witness :
    ∃ out, heapSortRun [[("a,1").data, ("c,3").data], [("b,2").data]] = some out ∧
      out.length = ([[("a,1").data, ("c,3").data], [("b,2").data]].map List.length).sum ∧
      Multiset.ofList out =
        ([[("a,1").data, ("c,3").data], [("b,2").data]].map (fun f => Multiset.ofList f)).sum ∧
      out.Pairwise keyLe :=
  claim_C2_amended [[("a,1").data, ("c,3").data], [("b,2").data]]
    (by decide) (by decide) (by decide)


/-! ### Record-extractor (recompress) claims -/

theorem extract_loop_spec (gzD : List Nat → List Nat) :
    ∀ (rds : List (List Nat)) (st out : List Nat),
      rds.foldl (fun acc rd =>
          let step := bz2_compress_step acc.1 (gzD rd)
          (step.1, acc.2 ++ step.2)) (st, out) =
        (st ++ (rds.map gzD).flatten, out) := by
  intro rds
  induction rds with
  | nil => intro st out; simp
  | cons rd rds ih =>
    intro st out
    rw [List.foldl_cons]
    show rds.foldl _ (st ++ gzD rd, out ++ []) = _
    rw [ih]
    simp

/-- C7: in recompress(bz2) mode, for every container and request list
whose slices are gzip members, the extractor feeds each record's
decompressed bytes in request order into one running bzip2 compressor
flushed exactly once, so the output file holds the bzip2 compression of
the concatenated decompressed records, and decompressing it recovers
exactly that concatenation (`bunzip2 ∘ bz2_recompress ∘ gzip = gunzip ∘
gzip` record-wise); the output name replaces the `.json.gz` extension by
`.json.bz2`. -/
theorem claim_C7 (gzC gzD bz2C bz2D : List Nat → List Nat)
    (hgz : ∀ x, gzD (gzC x) = x) (hbz : ∀ x, bz2D (bz2C x) = x)
    (container : List Nat) (offsets : List (Nat × Nat)) (xs : List (List Nat))
    (hrec : extract_records container offsets = xs.map gzC)
    (stem : List Char)
    (hocc : ∀ k < stem.length,
      ¬ (".json.gz".data).isPrefixOf ((stem ++ ".json.gz".data).drop k)) :
    extract_data_bz2 gzD bz2C container offsets =
      bz2C ((extract_records container offsets).map gzD).flatten ∧
    bz2D (extract_data_bz2 gzD bz2C container offsets) = xs.flatten ∧
    pyReplace (stem ++ ".json.gz".data) ".json.gz".data ".json.bz2".data =
      stem ++ ".json.bz2".data := by
  have hout : extract_data_bz2 gzD bz2C container offsets =
      bz2C ((extract_records container offsets).map gzD).flatten := by
    rw [extract_data_bz2]
    show (((extract_records container offsets).foldl _ ([], [])).2 ++
      bz2_flush bz2C ((extract_records container offsets).foldl _ ([], [])).1) = _
    rw [extract_loop_spec gzD (extract_records container offsets) [] []]
    simp [bz2_flush]
  refine ⟨hout, ?_, ?_⟩
  · rw [hout, hrec, hbz, List.map_map]
    congr 1
    have : List.map (gzD ∘ gzC) xs = List.map id xs := by
      apply List.map_congr_left
      intro x _
      exact hgz x
    rw [this, List.map_id]
  · exact pyReplace_last stem _ _ (by decide) hocc

/-- Witness for C7 with the identity codecs on a 3-byte container split
into two records. -/
theorem claim_C7_witness :
    extract_data_bz2 id id [1, 2, 3] [(0, 1), (1, 3)] =
      id ((extract_records [1, 2, 3] [(0, 1), (1, 3)]).map id).flatten ∧
    id (extract_data_bz2 id id [1, 2, 3] [(0, 1), (1, 3)]) =
      ([[1], [2, 3]] : List (List Nat)).flatten ∧
    pyReplace ("en0000-00".data ++ ".json.gz".data) ".json.gz".data ".json.bz2".data =
      "en0000-00".data ++ ".json.bz2".data :=
  claim_C7 id id id id (fun _ => rfl) (fun _ => rfl) [1, 2, 3] [(0, 1), (1, 3)]
    [[1], [2, 3]] (by decide) "en0000-00".data (by decide)

/-! ### Coordinator, shard-opening and supervisor claims -/

/-- C5 (behaviour at the failing input): whatever socket a request
arrives on, the coordinator's single reply — always a tuple starting
with `ACK` — is sent on the *jobs* socket (source line
`zmq_sock_jobs.send_pyobj((reply_type, reply_data))`); in particular a
`RESET_JOB` request received on the control socket is answered on the
jobs socket, not the socket it arrived on as the claim requires. -/
theorem claim_C5_bug :
    (∀ (s : CoordState) (src : Socket) (msg : ZMsg),
      (coordinator_step s src msg).2.1 = Socket.jobs ∧
      (coordinator_step s src msg).2.2.1 = ZReply.ack) ∧
    (coordinator_step { db := store5, done := false } Socket.ctrl
        (.localResetJob "A")).2.1 ≠ Socket.ctrl := by
  constructor
  · intro s src msg
    cases msg with
    | finished j n ok => cases ok <;> exact ⟨rfl, rfl⟩
    | newjob j n => exact ⟨rfl, rfl⟩
    | localExit => exact ⟨rfl, rfl⟩
    | localResetJob j => exact ⟨rfl, rfl⟩
    | unknown => exact ⟨rfl, rfl⟩
  · decide

/-- C6 (counterexample): a static-mode worker whose shard file already
exists (content "stale") does not abort — opening succeeds and the
pre-existing shard is truncated to empty content. -/
theorem claim_C6_counterexample :
    fs0 "scan-w0.csv" = some "stale" ∧
    static_open_shard fs0 "scan-w0.csv" = Except.ok (pyOpenW fs0 "scan-w0.csv") ∧
    (static_open_shard fs0 "scan-w0.csv").isOk = true ∧
    pyOpenW fs0 "scan-w0.csv" "scan-w0.csv" = some "" :=
  ⟨by decide, rfl, rfl, by decide⟩

/-- C6 (amended): only the dynamic scanner aborts with a hard error when
its per-worker shard file already exists; the static scanner performs no
existence check and opens the shard in truncating write mode, erasing
any pre-existing shard contents. -/
theorem claim_C6_amended (fs : String → Option String) (shard : String) :
    ((fs shard).isSome = true →
      dynamic_open_shard fs shard =
        Except.error ("Output file " ++ shard ++ " already exists!")) ∧
    ((fs shard).isSome = false →
      dynamic_open_shard fs shard = Except.ok (pyOpenW fs shard)) ∧
    static_open_shard fs shard = Except.ok (pyOpenW fs shard) ∧
    pyOpenW fs shard shard = some "" := by
  refine ⟨?_, ?_, rfl, ?_⟩
  · intro h
    rw [dynamic_open_shard, if_pos h]
  · intro h
    rw [dynamic_open_shard, if_neg (by rw [h]; exact Bool.false_ne_true)]
  · rw [pyOpenW]
    simp

/-- Witness for C6 (amended) on the filesystem with an existing stale
shard: the dynamic scanner errors out, the static scanner opens and
truncates. -/
theorem claim_C6_amended_witness :
    dynamic_open_shard fs0 "scan-w0.csv" =
      Except.error ("Output file " ++ "scan-w0.csv" ++ " already exists!") ∧
    static_open_shard fs0 "scan-w0.csv" = Except.ok (pyOpenW fs0 "scan-w0.csv") :=
  ⟨(claim_C6_amended fs0 "scan-w0.csv").1 (by decide),
    (claim_C6_amended fs0 "scan-w0.csv").2.2.1⟩

/-- C9: the dynamic supervisor's `done` flag starts `False`, no loop
iteration modifies it (`MSG_FINISHED` only increments the
`num_finished` counter), and hence after any sequence of processed
events the `while not self.done` guard still holds — the loop never
terminates normally and the post-loop join code is reachable only via
an exception. -/
theorem claim_C9 :
    (∀ (procs : Nat) (db : List FileRow), (supervisor_init procs db).done = false) ∧
    (∀ (s : SupState) (e : SupEvent), (supervisor_step s e).done = s.done) ∧
    (∀ (s : SupState) (i : Nat) (ok : Bool),
      supervisor_step s (.pipeFinished i ok) = { s with numFinished := s.numFinished + 1 }) ∧
    (∀ (procs : Nat) (db : List FileRow) (events : List SupEvent),
      (supervisor_run (supervisor_init procs db) events).done = false) := by
  have hstep : ∀ (s : SupState) (e : SupEvent), (supervisor_step s e).done = s.done := by
    intro s e
    cases e with
    | ctrlResume i =>
      rw [supervisor_step]
      split
      · rfl
      · rw [sendFile]
        split <;> rfl
    | ctrlPause i =>
      rw [supervisor_step]
      split <;> rfl
    | ctrlUnknown => rfl
    | pipeFinished i ok => rfl
    | pipeProgress i n => rfl
    | pipeScanned i content =>
      cases content with
      | none =>
        show (if s.workersActive.getD i false then sendFile s i else s).done = s.done
        split
        · rw [sendFile]; split <;> rfl
        · rfl
      | some p =>
        show (if ({ s with db := complete_batch_files s.db [p] } : SupState).workersActive.getD
              i false then
            sendFile { s with db := complete_batch_files s.db [p] } i
          else { s with db := complete_batch_files s.db [p] }).done = s.done
        split
        · rw [sendFile]; split <;> rfl
        · rfl
    | timeout => rfl
  have hrun : ∀ (events : List SupEvent) (s : SupState),
      (supervisor_run s events).done = s.done := by
    intro events
    induction events with
    | nil => intro s; rfl
    | cons e es ih =>
      intro s
      show (supervisor_run (supervisor_step s e) es).done = s.done
      rw [ih, hstep]
  exact ⟨fun _ _ => rfl, hstep, fun _ _ _ => rfl, fun procs db events => hrun events _⟩

end ClueWeb
